import Mathlib

/-!
# LogFilter: the three-stage pipeline of `main.c`

A shallow embedding of `src/main.c`.  C strings are `List Char` (one `Char`
per byte).  The three stages of `log_search` (the Reader `read_from_file`,
the Filter `filter`, and the Assembler `write_to_buffer`, which runs in the
thread of `log_search`) are modelled as three step functions on one shared
state; a run of the program is any interleaving of their steps.  Every read
or write of a field of the shared `LogQueue` that another stage may write is
a step of its own.
-/

namespace LogFilter

/-! ## Constants and the C library -/

/-- Macro `MAX_LOG_SIZE` of `main.c`. -/
def MAX_LOG_SIZE : Nat := 400

/-- Macro `QUEUE_SIZE` of `main.c`. -/
def QUEUE_SIZE : Nat := 20

/-- The NUL byte that ends a C string. -/
def NUL : Char := Char.ofNat 0

/-- The C string held by an array of bytes: the bytes before the first NUL
(what `strlen`, `strcat`, `regexec` and `printf` see). -/
def c_str (bytes : List Char) : List Char :=
  bytes.takeWhile (fun c => c != NUL)

/-- Bytes taken by one `fgets` call that may still store `k` bytes: input is
consumed up to and including the first newline, or until `k` bytes are
stored, or until the stream ends. Returns the bytes stored and the rest of
the stream. -/
def fgets_chars : Nat → List Char → List Char × List Char
  | 0, s => ([], s)
  | _ + 1, [] => ([], [])
  | k + 1, c :: s =>
    if c = '\n' then ([c], s)
    else ((c :: (fgets_chars k s).1), (fgets_chars k s).2)

/-- Library call `fgets(buf, n, file)`: `none` is the NULL returned at end of
file; otherwise at most `n - 1` bytes are stored. -/
def fgets (n : Nat) (stream : List Char) : Option (List Char × List Char) :=
  match stream with
  | [] => none
  | _ :: _ => some (fgets_chars (n - 1) stream)

/-- Library call `strcat(dst, src)` on the strings held. -/
def strcat (dst src : List Char) : List Char := dst ++ src

/-! ## Pure parts of `main.c` -/

/-- Function `increment_pos`: the next position in the round buffer. -/
def increment_pos (pos : Int) : Int :=
  if pos = (QUEUE_SIZE : Int) - 1 then 0 else pos + 1

/-- The first loop of `filter`: the regex pattern written for a mask.
`?` becomes `.`, `*` becomes `.*`, every other byte is copied as it is. -/
def re_pattern : List Char → List Char
  | [] => []
  | c :: mask =>
    if c = '?' then '.' :: re_pattern mask
    else if c = '*' then '.' :: '*' :: re_pattern mask
    else c :: re_pattern mask

/-- The statement `buf[strlen(buf) - 1] = 0` of `read_from_file`: the last
byte of the string is cut off.  (For an empty string the C statement stores
at index -1, outside the slot; the model leaves the string empty.) -/
def strip_last (line : List Char) : List Char := line.dropLast

/-! ## The shared queue -/

/-- Struct `LogQueue`.  `buffer` and `flags` are indexed by position. -/
structure LogQueue where
  write_pos : Int
  read_pos : Int
  filter_pos : Int
  buffer : Int → List Char
  flags : Int → Bool
  is_writing_finished : Bool
  is_filtering_finished : Bool
  is_failed : Bool

/-- Function `create_log_queue` (when its allocations succeed). -/
def create_log_queue : LogQueue where
  write_pos := 0
  read_pos := 0
  filter_pos := 0
  buffer := fun _ => []
  flags := fun _ => false
  is_writing_finished := false
  is_filtering_finished := false
  is_failed := false

/-- Store into one slot of an array of the queue. -/
def store {α : Type} (arr : Int → α) (i : Int) (v : α) : Int → α :=
  fun j => if j = i then v else arr j

/-! ## Inputs of one search -/

/-- Everything a call of `log_search` depends on: its arguments, the file
system (`file = none`: `fopen` fails), the regex library (`regcomp pattern`
is `none` on a compile error, otherwise the predicate that `regexec`
computes for the compiled pattern), and whether each allocation and each
`pthread_create` succeeds. -/
structure Config where
  file : Option (List Char)
  mask : List Char
  max_lines : Int
  scan_tail : Bool
  separator : List Char
  regcomp : List Char → Option (List Char → Bool)
  queue_alloc_ok : Bool
  reader_thread_ok : Bool
  filter_thread_ok : Bool
  out_alloc_ok : Bool

/-! ## Program counters -/

/-- Control points of `read_from_file`. -/
inductive RPc
  | idle | fopen | fail | chk_failed | chk_filt | chk_full1 | chk_full2
  | fgets | strip | incr | finish | done
  deriving DecidableEq, Repr

/-- Control points of `filter`. -/
inductive FPc
  | idle | compile | fail | chk_failed | chk_avail | exec | setflag | incr
  | chk_wfin | finish | done
  deriving DecidableEq, Repr

/-- Control points of `log_search` with `write_to_buffer` inlined. -/
inductive MPc
  | create | spawn_reader | spawn_filter | spawn_filter_fail | alloc
  | alloc_fail | chk_failed | chk_avail | chk_flag | cat_line | cat_sep
  | incr | chk_ffin | free | ret | done
  deriving DecidableEq, Repr

/-- One global state of a search.  The last four fields and `freed` are
history variables: they record what has happened and are never read by the
code. -/
structure State where
  queue : LogQueue
  /-- Queue released by `free_log_queue`. -/
  freed : Bool
  rpc : RPc
  /-- Unread rest of the input file. -/
  stream : List Char
  fpc : FPc
  /-- The compiled pattern `re` of `filter`. -/
  re : List Char → Bool
  passed_throw_num : Int
  /-- Result of the last `regexec` call. -/
  matched : Bool
  mpc : MPc
  /-- Variable `out_buffer` of `log_search`: `none` is NULL. -/
  out_buffer : Option (List Char)
  /-- Value returned by `log_search`, once it has returned. -/
  result : Option (Option (List Char))
  /-- The lines the Reader has handed over, oldest first. -/
  hist : List (List Char)
  /-- Number of lines the Filter has classified. -/
  nF : Nat
  /-- Number of lines the Assembler has consumed. -/
  nR : Nat
  /-- Number of lines the Assembler has appended to the output. -/
  appended : Nat

/-- State in which `log_search` is called. -/
def init : State where
  queue := create_log_queue
  freed := false
  rpc := .idle
  stream := []
  fpc := .idle
  re := fun _ => false
  passed_throw_num := 0
  matched := false
  mpc := .create
  out_buffer := none
  result := none
  hist := []
  nF := 0
  nR := 0
  appended := 0

/-! ## The three stages -/

/-- One step of `read_from_file`; `none` when the Reader is not running. -/
def stepReader (cfg : Config) (s : State) : Option State :=
  match s.rpc with
  | .idle => none
  | .fopen =>
    match cfg.file with
    | none => some { s with rpc := .fail }
    | some content => some { s with stream := content, rpc := .chk_failed }
  | .fail => some { s with queue := { s.queue with is_failed := true }, rpc := .done }
  | .chk_failed =>
    some { s with rpc := if s.queue.is_failed = false then .chk_filt else .finish }
  | .chk_filt =>
    some { s with rpc := if s.queue.is_filtering_finished = false then .chk_full1 else .finish }
  | .chk_full1 =>
    some { s with rpc := if s.queue.write_pos ≠ s.queue.read_pos - 1 then .chk_full2
                         else .chk_failed }
  | .chk_full2 =>
    some { s with rpc := if s.queue.write_pos ≠ (QUEUE_SIZE : Int) - 1 ∨ s.queue.read_pos ≠ 0
                         then .fgets else .chk_failed }
  | .fgets =>
    match fgets MAX_LOG_SIZE s.stream with
    | none => some { s with rpc := .finish }
    | some (chunk, rest) =>
      some { s with queue := { s.queue with
                                buffer := store s.queue.buffer s.queue.write_pos (c_str chunk) },
                    stream := rest, rpc := .strip }
  | .strip =>
    some { s with queue := { s.queue with
                              buffer := store s.queue.buffer s.queue.write_pos
                                (strip_last (s.queue.buffer s.queue.write_pos)) },
                  rpc := .incr }
  | .incr =>
    some { s with queue := { s.queue with write_pos := increment_pos s.queue.write_pos },
                  hist := s.hist ++ [s.queue.buffer s.queue.write_pos],
                  rpc := .chk_failed }
  | .finish => some { s with queue := { s.queue with is_writing_finished := true }, rpc := .done }
  | .done => none

/-- One step of `filter`; `none` when the Filter is not running. -/
def stepFilter (cfg : Config) (s : State) : Option State :=
  match s.fpc with
  | .idle => none
  | .compile =>
    match cfg.regcomp (re_pattern cfg.mask) with
    | none => some { s with fpc := .fail }
    | some re => some { s with re := re, passed_throw_num := 0, fpc := .chk_failed }
  | .fail => some { s with queue := { s.queue with is_failed := true }, fpc := .done }
  | .chk_failed =>
    some { s with fpc := if s.queue.is_failed = false ∧ s.passed_throw_num < cfg.max_lines
                         then .chk_avail else .finish }
  | .chk_avail =>
    some { s with fpc := if s.queue.filter_pos ≠ s.queue.write_pos then .exec else .chk_wfin }
  | .exec =>
    some { s with matched := s.re (s.queue.buffer s.queue.filter_pos), fpc := .setflag }
  | .setflag =>
    some { s with queue := { s.queue with
                              flags := store s.queue.flags s.queue.filter_pos s.matched },
                  passed_throw_num :=
                    if s.matched = true then s.passed_throw_num + 1 else s.passed_throw_num,
                  fpc := .incr }
  | .incr =>
    some { s with queue := { s.queue with filter_pos := increment_pos s.queue.filter_pos },
                  nF := s.nF + 1, fpc := .chk_failed }
  | .chk_wfin =>
    some { s with fpc := if s.queue.is_writing_finished = true then .finish else .chk_failed }
  | .finish =>
    some { s with queue := { s.queue with is_filtering_finished := true }, fpc := .done }
  | .done => none

/-- One step of `log_search` (and of `write_to_buffer`, which it calls);
`none` once `log_search` has returned. -/
def stepMain (cfg : Config) (s : State) : Option State :=
  match s.mpc with
  | .create =>
    if cfg.queue_alloc_ok = true then some { s with queue := create_log_queue, mpc := .spawn_reader }
    else some { s with result := some none, mpc := .done }
  | .spawn_reader =>
    if cfg.reader_thread_ok = true then some { s with rpc := .fopen, mpc := .spawn_filter }
    else some { s with result := some none, mpc := .done }
  | .spawn_filter =>
    if cfg.filter_thread_ok = true then some { s with fpc := .compile, mpc := .alloc }
    else some { s with mpc := .spawn_filter_fail }
  | .spawn_filter_fail =>
    some { s with queue := { s.queue with is_failed := true }, result := some none, mpc := .done }
  | .alloc =>
    if cfg.out_alloc_ok = true then some { s with out_buffer := some [], mpc := .chk_failed }
    else some { s with out_buffer := none, mpc := .alloc_fail }
  | .alloc_fail => some { s with queue := { s.queue with is_failed := true }, mpc := .free }
  | .chk_failed =>
    some { s with mpc := if s.queue.is_failed = false then .chk_avail else .free }
  | .chk_avail =>
    some { s with mpc := if s.queue.read_pos ≠ s.queue.filter_pos then .chk_flag else .chk_ffin }
  | .chk_flag =>
    some { s with mpc := if s.queue.flags s.queue.read_pos = true then .cat_line else .incr }
  | .cat_line =>
    some { s with out_buffer := s.out_buffer.map
                    (fun out => strcat out (s.queue.buffer s.queue.read_pos)),
                  appended := s.appended + 1, mpc := .cat_sep }
  | .cat_sep =>
    some { s with out_buffer := s.out_buffer.map (fun out => strcat out cfg.separator),
                  mpc := .incr }
  | .incr =>
    some { s with queue := { s.queue with read_pos := increment_pos s.queue.read_pos },
                  nR := s.nR + 1, mpc := .chk_failed }
  | .chk_ffin =>
    some { s with mpc := if s.queue.is_filtering_finished = true then .free else .chk_failed }
  | .free => some { s with freed := true, mpc := .ret }
  | .ret => some { s with result := some s.out_buffer, mpc := .done }
  | .done => none

/-! ## The regex library on a fragment of POSIX basic regular expressions

`regcomp` (called without `REG_EXTENDED`) and `regexec` belong to the C
library.  They are modelled on the patterns built from ordinary characters,
`.`, a `*` after an atom, a backslash before one of `. [ \ * ^ $`, a leading
`^` and a trailing `$`.  Bracket expressions, groups, intervals and back
references are outside the fragment: `bre_parse` has no result for them, as
for the patterns that `regcomp` rejects. -/

/-- Tokens of a basic regular expression. -/
inductive Tok
  | chr (c : Char)
  | dot
  | star
  | dollar
  deriving DecidableEq, Repr

/-- One-character matchers. -/
inductive Atom
  | chr (c : Char)
  | any
  deriving DecidableEq, Repr

/-- A parsed pattern: anchored at the start, pieces (an atom, starred or not),
anchored at the end. -/
structure BRE where
  anchor_start : Bool
  pieces : List (Atom × Bool)
  anchor_end : Bool
  deriving DecidableEq, Repr

/-- The characters a backslash quotes in the fragment. -/
def bre_special (c : Char) : Bool :=
  c = '.' || c = '[' || c = '\\' || c = '*' || c = '^' || c = '$'

/-- Split a pattern into tokens. -/
def bre_tokens : List Char → Option (List Tok)
  | [] => some []
  | c :: rest =>
    if c = '\\' then
      match rest with
      | [] => none
      | d :: rest1 =>
        if bre_special d then (bre_tokens rest1).map (fun ts => Tok.chr d :: ts) else none
    else if c = '[' then none
    else if c = '.' then (bre_tokens rest).map (fun ts => Tok.dot :: ts)
    else if c = '*' then (bre_tokens rest).map (fun ts => Tok.star :: ts)
    else if c = '$' then (bre_tokens rest).map (fun ts => Tok.dollar :: ts)
    else (bre_tokens rest).map (fun ts => Tok.chr c :: ts)

/-- The atom of a token that stands for one character. -/
def bre_atom : Tok → Atom
  | .chr c => .chr c
  | .dot => .any
  | .star => .chr '*'
  | .dollar => .chr '$'

/-- Group tokens into pieces; a `$` is an anchor only as the last token. -/
def bre_pieces : List Tok → Option (List (Atom × Bool) × Bool)
  | [] => some ([], false)
  | [.dollar] => some ([], true)
  | .star :: _ => none
  | t :: .star :: rest => (bre_pieces rest).map (fun r => ((bre_atom t, true) :: r.1, r.2))
  | t :: rest => (bre_pieces rest).map (fun r => ((bre_atom t, false) :: r.1, r.2))

/-- Parse a pattern: a leading `^` is an anchor, a `*` right after the start
is an ordinary character. -/
def bre_parse (pattern : List Char) : Option BRE :=
  let anchored := pattern.head? = some '^'
  let body := if anchored then pattern.tail else pattern
  match bre_tokens body with
  | none => none
  | some (.star :: .star :: rest) =>
    (bre_pieces rest).map (fun r => ⟨anchored, (Atom.chr '*', true) :: r.1, r.2⟩)
  | some (.star :: rest) =>
    (bre_pieces rest).map (fun r => ⟨anchored, (Atom.chr '*', false) :: r.1, r.2⟩)
  | some ts => (bre_pieces ts).map (fun r => ⟨anchored, r.1, r.2⟩)

/-- Whether an atom accepts a character. -/
def atom_ok : Atom → Char → Bool
  | .chr c, d => c = d
  | .any, _ => true

/-- Starred atom: try the continuation after zero, one, two, ... accepted
characters. -/
def star_loop (ok : Char → Bool) (k : List Char → Bool) : List Char → Bool
  | [] => k []
  | c :: s => k (c :: s) || (ok c && star_loop ok k s)

/-- Whether the pieces match a prefix of the text (the whole text when
anchored at the end). -/
def match_here : List (Atom × Bool) → Bool → List Char → Bool
  | [], anchor_end => fun s => !anchor_end || s.isEmpty
  | (a, false) :: ps, anchor_end => fun s =>
    match s with
    | [] => false
    | c :: s1 => atom_ok a c && match_here ps anchor_end s1
  | (a, true) :: ps, anchor_end => star_loop (atom_ok a) (match_here ps anchor_end)

/-- Try a match at every position of the text. -/
def search_from (k : List Char → Bool) : List Char → Bool
  | [] => k []
  | c :: s => k (c :: s) || search_from k s

/-- Library call `regexec` with `REG_NOSUB`: does some part of the line match? -/
def bre_exec (re : BRE) (line : List Char) : Bool :=
  if re.anchor_start then match_here re.pieces re.anchor_end line
  else search_from (match_here re.pieces re.anchor_end) line

/-- Library call `regcomp` on the fragment, as a `Config.regcomp`. -/
def bre_regcomp (pattern : List Char) : Option (List Char → Bool) :=
  (bre_parse pattern).map bre_exec

/-! ## Interleavings

A step of the Reader or of the Filter taken after `free_log_queue` is
modelled as if the queue were still there; `freed` records the release. -/

/-- The three threads of a search. -/
inductive Tid
  | reader | filter | main
  deriving DecidableEq, Repr

/-- One step of the chosen thread. -/
def step (cfg : Config) (t : Tid) (s : State) : Option State :=
  match t with
  | .reader => stepReader cfg s
  | .filter => stepFilter cfg s
  | .main => stepMain cfg s

/-- The states an interleaving of the three threads can reach. -/
inductive Reachable (cfg : Config) : State → Prop
  | start : Reachable cfg init
  | next (t : Tid) (s s1 : State) :
      Reachable cfg s → step cfg t s = some s1 → Reachable cfg s1

/-- Run a schedule: each entry lets that thread take one step (no step if
the thread is not running). -/
def run (cfg : Config) : List Tid → State → State
  | [], s => s
  | t :: ts, s =>
    match step cfg t s with
    | some s1 => run cfg ts s1
    | none => run cfg ts s

/-! ## The invariants of the pipeline -/

/-- Positions are the counters modulo `QUEUE_SIZE`; the counters are ordered;
what each stage knows at each control point. -/
def InvPos (s : State) : Prop :=
  s.queue.write_pos = ((s.hist.length % 20 : Nat) : Int) ∧
  s.queue.filter_pos = ((s.nF % 20 : Nat) : Int) ∧
  s.queue.read_pos = ((s.nR % 20 : Nat) : Int) ∧
  s.nR ≤ s.nF ∧ s.nF ≤ s.hist.length ∧ s.hist.length ≤ s.nR + 19 ∧
  (s.rpc = .chk_full2 → s.queue.write_pos ≠ 19 → s.hist.length < s.nR + 19) ∧
  (s.rpc = .fgets ∨ s.rpc = .strip ∨ s.rpc = .incr → s.hist.length < s.nR + 19) ∧
  (s.fpc = .exec ∨ s.fpc = .setflag ∨ s.fpc = .incr → s.nF < s.hist.length) ∧
  (s.mpc = .chk_flag ∨ s.mpc = .cat_line ∨ s.mpc = .cat_sep ∨ s.mpc = .incr → s.nR < s.nF) ∧
  (s.mpc = .create ∨ s.mpc = .spawn_reader → s.rpc = .idle) ∧
  (s.mpc = .create ∨ s.mpc = .spawn_reader ∨ s.mpc = .spawn_filter → s.fpc = .idle) ∧
  (s.mpc = .create ∨ s.mpc = .spawn_reader ∨ s.mpc = .spawn_filter ∨
    s.mpc = .spawn_filter_fail ∨ s.mpc = .alloc ∨ s.mpc = .alloc_fail → s.nR = 0) ∧
  (s.rpc = .idle ∨ s.rpc = .fopen → s.hist = []) ∧
  (s.fpc = .idle ∨ s.fpc = .compile → s.nF = 0)

/-- Control points of `filter` after the pattern has been compiled. -/
def FPc.compiled : FPc → Bool
  | .idle | .compile | .fail => false
  | .done => false
  | _ => true

/-- Slots between the Assembler and the Reader hold the lines handed over;
flags between the Assembler and the Filter hold the verdict of the compiled
pattern on them. -/
def InvData (cfg : Config) (s : State) : Prop :=
  (∀ i : Nat, s.nR ≤ i → i < s.hist.length →
    s.queue.buffer ((i % 20 : Nat) : Int) = s.hist.getD i []) ∧
  (s.fpc = .setflag → s.matched = s.re (s.hist.getD s.nF [])) ∧
  (s.fpc = .incr → s.queue.flags ((s.nF % 20 : Nat) : Int) = s.re (s.hist.getD s.nF [])) ∧
  (∀ i : Nat, s.nR ≤ i → i < s.nF →
    s.queue.flags ((i % 20 : Nat) : Int) = s.re (s.hist.getD i [])) ∧
  (0 < s.nF ∨ s.fpc.compiled = true → cfg.regcomp (re_pattern cfg.mask) = some s.re)

/-- The counter `passed_throw_num` is the number of matching lines among
those classified, and stays within the quota `max_lines`. -/
def InvCount (cfg : Config) (s : State) : Prop :=
  (s.fpc ≠ .incr → s.passed_throw_num = (((s.hist.take s.nF).countP s.re : Nat) : Int)) ∧
  (s.fpc = .incr →
    s.passed_throw_num = (((s.hist.take (s.nF + 1)).countP s.re : Nat) : Int)) ∧
  (s.fpc = .chk_avail ∨ s.fpc = .exec ∨ s.fpc = .setflag ∨ s.fpc = .chk_wfin →
    s.passed_throw_num < cfg.max_lines) ∧
  (s.passed_throw_num ≤ cfg.max_lines ∨ s.passed_throw_num = 0)

/-- Each line followed by the separator, concatenated. -/
def join_lines (sep : List Char) : List (List Char) → List Char
  | [] => []
  | l :: ls => l ++ sep ++ join_lines sep ls

/-- The output for the first `n` lines handed over: those that the compiled
pattern accepts, each followed by the separator. -/
def out_of (cfg : Config) (s : State) (n : Nat) : List Char :=
  join_lines cfg.separator ((s.hist.take n).filter s.re)

/-- The output buffer holds the accepted lines among those consumed. -/
def InvOut (cfg : Config) (s : State) : Prop :=
  (s.mpc = .chk_failed ∨ s.mpc = .chk_avail ∨ s.mpc = .chk_flag ∨ s.mpc = .cat_line ∨
    s.mpc = .chk_ffin → s.out_buffer = some (out_of cfg s s.nR)) ∧
  (s.mpc = .cat_line ∨ s.mpc = .cat_sep → s.re (s.hist.getD s.nR []) = true) ∧
  (s.mpc = .cat_sep → s.out_buffer = some (out_of cfg s s.nR ++ s.hist.getD s.nR [])) ∧
  (s.mpc = .incr → s.out_buffer = some (out_of cfg s (s.nR + 1))) ∧
  (s.mpc = .alloc_fail ∨ s.mpc = .free ∨ s.mpc = .ret ∨ s.mpc = .done →
    s.out_buffer = none ∨ s.out_buffer = some (out_of cfg s s.nR)) ∧
  (∀ out, s.result = some (some out) → out = out_of cfg s s.nR) ∧
  (s.mpc ≠ .cat_sep → s.mpc ≠ .incr →
    s.appended = ((s.hist.take s.nR).filter s.re).length) ∧
  (s.mpc = .cat_sep ∨ s.mpc = .incr →
    s.appended = ((s.hist.take (s.nR + 1)).filter s.re).length) ∧
  (s.mpc ≠ .done → s.result = none) ∧
  (s.mpc = .create ∨ s.mpc = .spawn_reader ∨ s.mpc = .spawn_filter ∨
    s.mpc = .spawn_filter_fail ∨ s.mpc = .alloc → s.out_buffer = none)

/-- Every line handed over has at most `MAX_LOG_SIZE - 2` characters. -/
def InvLen (s : State) : Prop :=
  (∀ l ∈ s.hist, l.length ≤ 398) ∧
  (s.rpc = .strip → (s.queue.buffer s.queue.write_pos).length ≤ 399) ∧
  (s.rpc = .incr → (s.queue.buffer s.queue.write_pos).length ≤ 398)

/-- The lines that the loop of `read_from_file` stores when it runs to the
end of the stream: `fgets`, then the last byte cut off, again and again.
The first argument bounds the number of `fgets` calls. -/
def read_all_fuel : Nat → List Char → List (List Char)
  | 0, _ => []
  | n + 1, s =>
    match fgets MAX_LOG_SIZE s with
    | none => []
    | some (chunk, rest) => strip_last (c_str chunk) :: read_all_fuel n rest

/-- The lines stored from a stream; every `fgets` call takes at least one
byte, so as many calls as there are bytes reach the end of the stream. -/
def read_all (s : List Char) : List (List Char) := read_all_fuel s.length s

/-- The lines of the input file (none when it cannot be opened). -/
def file_lines (cfg : Config) : List (List Char) :=
  match cfg.file with
  | none => []
  | some content => read_all content

/-- The lines handed over, the line being stored, and the lines still in the
stream make up the lines of the file. -/
def InvFile (cfg : Config) (s : State) : Prop :=
  (s.rpc = .chk_failed ∨ s.rpc = .chk_filt ∨ s.rpc = .chk_full1 ∨ s.rpc = .chk_full2 ∨
    s.rpc = .fgets → file_lines cfg = s.hist ++ read_all s.stream) ∧
  (s.rpc = .strip → file_lines cfg =
    s.hist ++ strip_last (s.queue.buffer s.queue.write_pos) :: read_all s.stream) ∧
  (s.rpc = .incr → file_lines cfg =
    s.hist ++ s.queue.buffer s.queue.write_pos :: read_all s.stream) ∧
  s.hist <+: file_lines cfg

/-! ## Concrete searches and schedules -/

/-- Scenario A of the specification: the file `apple`, `banana`, `avocado`,
mask `a*`, quota 10, separator `,`, with the regex fragment above. -/
def cfgA : Config where
  file := some "apple\nbanana\navocado\n".toList
  mask := "a*".toList
  max_lines := 10
  scan_tail := false
  separator := ",".toList
  regcomp := bre_regcomp
  queue_alloc_ok := true
  reader_thread_ok := true
  filter_thread_ok := true
  out_alloc_ok := true

/-- A schedule in which the stages work one after the other: `log_search`
starts both threads, the Reader reads the whole file, the Filter classifies
every line, the Assembler collects and `log_search` returns. -/
def sched_in_turn : List Tid :=
  List.replicate 3 Tid.main ++ List.replicate 30 Tid.reader ++
    List.replicate 22 Tid.filter ++ List.replicate 26 Tid.main

/-- The file whose lines are `ls`, each ended by a newline. -/
def file_of_lines : List (List Char) → List Char
  | [] => []
  | l :: ls => l ++ '\n' :: file_of_lines ls

/-- A one-line file with a quota of two: fewer matching lines than
`max_lines`. -/
def cfgRace : Config where
  file := some "a\n".toList
  mask := "a".toList
  max_lines := 2
  scan_tail := false
  separator := ",".toList
  regcomp := bre_regcomp
  queue_alloc_ok := true
  reader_thread_ok := true
  filter_thread_ok := true
  out_alloc_ok := true

/-- The Filter finds the queue empty (`filter_pos == write_pos`); before it
tests `is_writing_finished` the Reader stores the only line, reaches the end
of the file and sets `is_writing_finished`; the Filter then stops. -/
def sched_race : List Tid :=
  List.replicate 3 Tid.main ++ List.replicate 3 Tid.filter ++
    List.replicate 14 Tid.reader ++ List.replicate 2 Tid.filter ++ List.replicate 6 Tid.main

/-- Scenario C of the specification: the input file cannot be opened. -/
def cfgMissing : Config where
  file := none
  mask := "a*".toList
  max_lines := 10
  scan_tail := false
  separator := ",".toList
  regcomp := bre_regcomp
  queue_alloc_ok := true
  reader_thread_ok := true
  filter_thread_ok := true
  out_alloc_ok := true

/-- The file of scenario A with a mask that `regcomp` rejects (an unmatched
bracket). -/
def cfgBadMask : Config where
  file := some "apple\nbanana\navocado\n".toList
  mask := "[".toList
  max_lines := 10
  scan_tail := false
  separator := ",".toList
  regcomp := bre_regcomp
  queue_alloc_ok := true
  reader_thread_ok := true
  filter_thread_ok := true
  out_alloc_ok := true

/-- Every stage runs until it stops. -/
def sched_failure : List Tid :=
  List.replicate 3 Tid.main ++ List.replicate 5 Tid.reader ++
    List.replicate 5 Tid.filter ++ List.replicate 6 Tid.main ++ List.replicate 40 Tid.reader

/-- The file of scenario A with a quota of one line. -/
def cfgQuota : Config where
  file := some "apple\nbanana\navocado\n".toList
  mask := "a*".toList
  max_lines := 1
  scan_tail := false
  separator := ",".toList
  regcomp := bre_regcomp
  queue_alloc_ok := true
  reader_thread_ok := true
  filter_thread_ok := true
  out_alloc_ok := true

/-- The Reader stores the first line and goes on to test for a free slot; the
Filter accepts the line, which fills the quota, and finishes; the Assembler
appends the line, sees `is_filtering_finished`, and `log_search` releases
the queue and returns. -/
def sched_quota : List Tid :=
  List.replicate 3 Tid.main ++ List.replicate 10 Tid.reader ++
    List.replicate 8 Tid.filter ++ List.replicate 12 Tid.main

/-- The Reader fails to open the file and sets `is_failed`; the Assembler
sees it, and `log_search` releases the queue and returns before the Filter
has taken a step. -/
def sched_missing_early : List Tid :=
  List.replicate 3 Tid.main ++ List.replicate 2 Tid.reader ++ List.replicate 4 Tid.main

/-- The pattern that `filter` builds for the mask `a*`, parsed. -/
def patternA : BRE := ⟨false, [(Atom.chr 'a', false), (Atom.any, true)], false⟩

/-! ## The command line: `main` -/

/-- Library predicate `isspace` in the C locale. -/
def isspace (c : Char) : Bool :=
  c = ' ' || c = '\t' || c = '\n' || c = Char.ofNat 11 || c = Char.ofNat 12 || c = '\r'

/-- Value of a run of decimal digits, most significant first. -/
def strtol_digits (acc : Nat) : List Char → Nat
  | [] => acc
  | c :: cs => strtol_digits (acc * 10 + (c.toNat - 48)) cs

/-- Constant `LONG_MAX` (64-bit `long`). -/
def LONG_MAX : Int := 2 ^ 63 - 1

/-- Constant `LONG_MIN` (64-bit `long`). -/
def LONG_MIN : Int := -(2 ^ 63)

/-- Library call `strtol(arg, &endptr, 10)`: the value and the offset of
`endptr` in `arg`.  Leading white space and one sign are skipped; without a
digit after them nothing is converted and `endptr` is `arg` itself. -/
def strtol (arg : List Char) : Int × Nat :=
  let blanks := arg.takeWhile isspace
  let rest := arg.dropWhile isspace
  let negative := rest.head? = some '-'
  let signed := rest.head? = some '-' ∨ rest.head? = some '+'
  let body := if signed then rest.tail else rest
  let digits := body.takeWhile Char.isDigit
  if digits = [] then (0, 0)
  else
    let magnitude : Int := strtol_digits 0 digits
    let value := if negative then -magnitude else magnitude
    (max LONG_MIN (min LONG_MAX value), blanks.length + (if signed then 1 else 0) + digits.length)

/-- Conversion of a `long` to `int` in the assignment `max_lines = strtol(..)`. -/
def long_to_int (v : Int) : Int := (v + 2 ^ 31) % 2 ^ 32 - 2 ^ 31

/-- Function `main`: its exit code for the argument vector `argv` (with
`argc = argv.length`), given what the call of `log_search` returns.  What
`main` prints is not modelled. -/
def main (argv : List (List Char))
    (log_search : List Char → List Char → Int → Bool → List Char → Option (List Char)) : Int :=
  if argv.length ≠ 6 then 1
  else
    let file_path := argv.getD 1 []
    let mask := argv.getD 2 []
    let separator := argv.getD 5 []
    let max_lines := long_to_int (strtol (argv.getD 3 [])).1
    if (argv.getD 3 []).length ≠ (strtol (argv.getD 3 [])).2 then 1
    else if argv.getD 4 [] = "true".toList then
      match log_search file_path mask max_lines true separator with
      | some _ => 0
      | none => 0
    else if argv.getD 4 [] = "false".toList then
      match log_search file_path mask max_lines false separator with
      | some _ => 0
      | none => 0
    else 1

/-- In the words of the specification: the argument is a base-10 integer
spanning the whole argument (an optional sign, then one or more decimal
digits, and nothing else). -/
def spec_base10_integer (arg : List Char) : Bool :=
  let body := if arg.head? = some '-' ∨ arg.head? = some '+' then arg.tail else arg
  !body.isEmpty && body.all Char.isDigit

/-- The argument is a base-10 integer with white space in front of it, as in
`" 5"`. -/
def blank_led_integer (arg : List Char) : Bool :=
  !(arg.takeWhile isspace).isEmpty && spec_base10_integer (arg.dropWhile isspace)

/-- In the words of the specification: the arguments are invalid. -/
def spec_args_invalid (argv : List (List Char)) : Bool :=
  argv.length != 6 || !spec_base10_integer (argv.getD 3 []) ||
    (argv.getD 4 [] != "true".toList && argv.getD 4 [] != "false".toList)

/-- Valid arguments: a file, the mask `a*`, quota 10, forward scan, separator
`,`. -/
def argv_valid : List (List Char) :=
  ["logfilter".toList, "missing.log".toList, "a*".toList, "10".toList, "false".toList,
    ",".toList]

/-- A search that fails: `log_search` returns NULL. -/
def search_fails : List Char → List Char → Int → Bool → List Char → Option (List Char) :=
  fun _ _ _ _ _ => none

/-! ## Complete runs -/

/-- The stages are between two lines: each is at the head of its loop, the
queue is empty, nothing has failed or finished; `stream` is still to be
read, `passed` lines have been accepted and `out` is the output so far. -/
structure Between (cfg : Config) (re : List Char → Bool) (stream : List Char) (passed : Int)
    (out : List Char) (s : State) : Prop where
  rpc : s.rpc = .chk_failed
  fpc : s.fpc = .chk_failed
  mpc : s.mpc = .chk_failed
  failed : s.queue.is_failed = false
  wfin : s.queue.is_writing_finished = false
  ffin : s.queue.is_filtering_finished = false
  wpos : s.queue.write_pos = s.queue.read_pos
  fpos : s.queue.filter_pos = s.queue.read_pos
  lo : 0 ≤ s.queue.read_pos
  hi : s.queue.read_pos < 20
  re_eq : s.re = re
  result : s.result = none
  stream_eq : s.stream = stream
  passed_eq : s.passed_throw_num = passed
  out_eq : s.out_buffer = some out

/-- Schedule for one line: the Reader stores it, the Filter classifies it,
the Assembler consumes it (and appends it when it is accepted). -/
def sched_line (hit : Bool) : List Tid :=
  List.replicate 7 Tid.reader ++ List.replicate 5 Tid.filter ++
    List.replicate (if hit then 6 else 4) Tid.main

/-- Schedule at the end of the file: the Reader finds the end and finishes,
the Filter finds the queue empty and the Reader finished, the Assembler finds
the queue empty and the Filter finished, and `log_search` returns. -/
def sched_eof : List Tid :=
  List.replicate 6 Tid.reader ++ List.replicate 4 Tid.filter ++ List.replicate 5 Tid.main

/-- Schedule when the quota is full: the Filter finishes, the Assembler finds
the queue empty and the Filter finished, and `log_search` returns. -/
def sched_full : List Tid :=
  List.replicate 2 Tid.filter ++ List.replicate 5 Tid.main

/-- Schedule for the start: `log_search` creates the queue and both threads
and allocates the output, the Reader opens the file, the Filter compiles the
pattern. -/
def sched_start : List Tid :=
  [Tid.main, Tid.main, Tid.main, Tid.main, Tid.reader, Tid.filter]

/-! ## Invariant 1: positions and counters -/

theorem invPos_init : InvPos init := by
  simp [InvPos, init, create_log_queue]

theorem invPos_reader (cfg : Config) (s s1 : State) (hi : InvPos s)
    (h : stepReader cfg s = some s1) : InvPos s1 := by
  obtain ⟨h1, h2, h3, h4, h5, h6, h7, h8, h9, h10, h11, h12, h13, h14, h15⟩ := hi
  unfold stepReader at h
  split at h <;> (try split at h) <;> simp at h <;> subst h <;>
    simp_all [InvPos, increment_pos, QUEUE_SIZE] <;> (try split) <;> (try simp_all) <;> omega

theorem invPos_filter (cfg : Config) (s s1 : State) (hi : InvPos s)
    (h : stepFilter cfg s = some s1) : InvPos s1 := by
  obtain ⟨h1, h2, h3, h4, h5, h6, h7, h8, h9, h10, h11, h12, h13, h14, h15⟩ := hi
  unfold stepFilter at h
  split at h <;> (try split at h) <;> simp at h <;> subst h <;>
    simp_all [InvPos, increment_pos, QUEUE_SIZE] <;> (try split) <;> (try simp_all) <;> omega

theorem invPos_main (cfg : Config) (s s1 : State) (hi : InvPos s)
    (h : stepMain cfg s = some s1) : InvPos s1 := by
  obtain ⟨h1, h2, h3, h4, h5, h6, h7, h8, h9, h10, h11, h12, h13, h14, h15⟩ := hi
  unfold stepMain at h
  split at h <;> (try split at h) <;> simp at h <;> subst h <;>
    simp_all [InvPos, increment_pos, QUEUE_SIZE, create_log_queue] <;> (try split) <;>
    (try simp_all) <;> omega

theorem invPos_step (cfg : Config) (t : Tid) (s s1 : State) (hi : InvPos s)
    (h : step cfg t s = some s1) : InvPos s1 := by
  cases t
  · exact invPos_reader cfg s s1 hi h
  · exact invPos_filter cfg s s1 hi h
  · exact invPos_main cfg s s1 hi h

theorem invPos_reachable (cfg : Config) (s : State) (hr : Reachable cfg s) : InvPos s := by
  induction hr with
  | start => exact invPos_init
  | next t s s1 _ h ih => exact invPos_step cfg t s s1 ih h

/-! ## Invariant 2: what the slots hold -/

theorem store_same {α : Type} (arr : Int → α) (i : Int) (v : α) : store arr i v i = v := by
  simp [store]

theorem store_other {α : Type} (arr : Int → α) (i j : Int) (v : α) (h : j ≠ i) :
    store arr i v j = arr j := by
  simp [store, h]

theorem slot_ne (i w r : Nat) (h1 : r ≤ i) (h2 : i < w) (h3 : w < r + 20) :
    ((i % 20 : Nat) : Int) ≠ ((w % 20 : Nat) : Int) := by
  omega

theorem getD_snoc_lt {α : Type} (l : List α) (x d : α) (i : Nat) (h : i < l.length) :
    (l ++ [x]).getD i d = l.getD i d :=
  List.getD_append l [x] d i h

theorem getD_snoc_eq {α : Type} (l : List α) (x d : α) : (l ++ [x]).getD l.length d = x := by
  rw [List.getD_append_right l [x] d l.length (le_refl _)]
  simp

theorem invData_init (cfg : Config) : InvData cfg init := by
  simp [InvData, init, create_log_queue, FPc.compiled]

theorem invData_reader (cfg : Config) (s s1 : State) (hp : InvPos s) (hi : InvData cfg s)
    (h : stepReader cfg s = some s1) : InvData cfg s1 := by
  obtain ⟨p1, p2, p3, p4, p5, p6, p7, p8, p9, p10, p11, p12, p13, p14, p15⟩ := hp
  obtain ⟨d1, d2, d3, d4, d5⟩ := hi
  unfold stepReader at h
  split at h <;> (try split at h) <;> simp at h <;> subst h <;>
    refine ⟨?_, ?_, ?_, ?_, ?_⟩ <;> dsimp only <;> (try assumption)
  all_goals first
    | (intro i hi1 hi2
       have hw := p8 (by simp [*])
       rw [store_other _ _ _ _ (by rw [p1]; exact slot_ne i _ s.nR hi1 hi2 (by omega))]
       exact d1 i hi1 hi2)
    | (intro i hi1 hi2
       have hw := p8 (by simp [*])
       simp only [List.length_append, List.length_singleton] at hi2
       rcases Nat.lt_or_ge i s.hist.length with hlt | hge
       · rw [getD_snoc_lt _ _ _ _ hlt]; exact d1 i hi1 hlt
       · have : i = s.hist.length := by omega
         subst this
         rw [getD_snoc_eq, p1])
    | (intro hpc
       have hw := p9 (by simp [*])
       rw [getD_snoc_lt _ _ _ _ hw]
       first | exact d2 hpc | exact d3 hpc)
    | (intro i hi1 hi2
       rw [getD_snoc_lt _ _ _ _ (by omega)]
       exact d4 i hi1 hi2)

theorem invData_filter (cfg : Config) (s s1 : State) (hp : InvPos s) (hi : InvData cfg s)
    (h : stepFilter cfg s = some s1) : InvData cfg s1 := by
  obtain ⟨p1, p2, p3, p4, p5, p6, p7, p8, p9, p10, p11, p12, p13, p14, p15⟩ := hp
  obtain ⟨d1, d2, d3, d4, d5⟩ := hi
  cases hpc : s.fpc <;> simp only [stepFilter, hpc] at h <;> (try split at h) <;>
    simp at h <;> subst h <;>
    (try simp only [hpc, FPc.compiled, false_or, or_false, true_or, or_true, or_self,
      true_implies, reduceCtorEq, false_implies] at p9 p15 d2 d3 d5) <;>
    refine ⟨?_, ?_, ?_, ?_, ?_⟩ <;> dsimp only [FPc.compiled] <;> (try assumption) <;>
    (try (intro hh; cases hh; done))
  all_goals first
    | (intro hh
       first
       | assumption
       | (rcases hh with hh | hh
          · exact d5 hh
          · cases hh))
    | (intro i hi1 hi2
       omega)
    | (intro _
       rw [p2, d1 s.nF p4 p9])
    | (intro _
       rw [p2, store_same]
       exact d2)
    | (intro i hi1 hi2
       rw [p2, store_other _ _ _ _ (slot_ne i _ s.nR hi1 hi2 (by omega))]
       exact d4 i hi1 hi2)
    | (intro i hi1 hi2
       rcases Nat.lt_or_ge i s.nF with hlt | hge
       · exact d4 i hi1 hlt
       · have hieq : i = s.nF := by omega
         subst hieq
         exact d3)

theorem invData_main (cfg : Config) (s s1 : State) (hp : InvPos s) (hi : InvData cfg s)
    (h : stepMain cfg s = some s1) : InvData cfg s1 := by
  obtain ⟨p1, p2, p3, p4, p5, p6, p7, p8, p9, p10, p11, p12, p13, p14, p15⟩ := hp
  obtain ⟨d1, d2, d3, d4, d5⟩ := hi
  cases hpc : s.mpc <;> simp only [stepMain, hpc] at h <;> (try split at h) <;>
    simp at h <;> subst h <;>
    (try simp only [hpc, false_or, or_false, true_or, or_true, or_self,
      true_implies, reduceCtorEq, false_implies] at p10 p11 p12 p13) <;>
    refine ⟨?_, ?_, ?_, ?_, ?_⟩ <;> dsimp only [FPc.compiled] <;> (try assumption) <;>
    (try (intro hh; cases hh; done))
  all_goals first
    | (intro i hi1 hi2
       first
       | exact d1 i (by omega) hi2
       | exact d4 i (by omega) hi2
       | (have hw := p14 (Or.inl p11)
          rw [hw] at hi2
          simp at hi2)
       | (have hf := p15 (Or.inl p12)
          omega))
    | (intro hc
       rw [p12] at hc
       cases hc)
    | (intro hh
       have hf := p15 (Or.inl p12)
       rcases hh with hh | hh
       · omega
       · cases hh)

theorem invData_step (cfg : Config) (t : Tid) (s s1 : State) (hp : InvPos s)
    (hi : InvData cfg s) (h : step cfg t s = some s1) : InvData cfg s1 := by
  cases t
  · exact invData_reader cfg s s1 hp hi h
  · exact invData_filter cfg s s1 hp hi h
  · exact invData_main cfg s s1 hp hi h

theorem invData_reachable (cfg : Config) (s : State) (hr : Reachable cfg s) : InvData cfg s := by
  induction hr with
  | start => exact invData_init cfg
  | next t s s1 hs h ih => exact invData_step cfg t s s1 (invPos_reachable cfg s hs) ih h

/-! ## Invariant 3: the quota -/

theorem take_succ_getD {α : Type} (l : List α) (d : α) (i : Nat) (h : i < l.length) :
    l.take (i + 1) = l.take i ++ [l.getD i d] := by
  rw [List.take_succ, List.getD_eq_getElem?_getD, List.getElem?_eq_getElem h]
  rfl

theorem take_snoc_le {α : Type} (l : List α) (x : α) (n : Nat) (h : n ≤ l.length) :
    (l ++ [x]).take n = l.take n :=
  List.take_append_of_le_length h

theorem countP_take_succ (re : List Char → Bool) (l : List (List Char)) (i : Nat)
    (h : i < l.length) :
    (((l.take (i + 1)).countP re : Nat) : Int) =
      ((l.take i).countP re : Nat) + (if re (l.getD i []) = true then 1 else 0) := by
  rw [take_succ_getD l [] i h, List.countP_append]
  by_cases hm : re (l.getD i []) = true <;> simp [List.countP_cons, hm]

theorem invCount_init (cfg : Config) : InvCount cfg init := by
  simp [InvCount, init]

theorem invCount_reader (cfg : Config) (s s1 : State) (hp : InvPos s) (hi : InvCount cfg s)
    (h : stepReader cfg s = some s1) : InvCount cfg s1 := by
  obtain ⟨p1, p2, p3, p4, p5, p6, p7, p8, p9, p10, p11, p12, p13, p14, p15⟩ := hp
  obtain ⟨c1, c2, c3, c4⟩ := hi
  cases hpc : s.rpc <;> simp only [stepReader, hpc] at h <;> (try split at h) <;>
    simp at h <;> subst h <;>
    refine ⟨?_, ?_, ?_, ?_⟩ <;> dsimp only <;> (try assumption)
  all_goals first
    | (intro hc
       rw [take_snoc_le _ _ _ p5]
       exact c1 hc)
    | (intro hc
       rw [take_snoc_le _ _ _ (p9 (Or.inr (Or.inr hc)))]
       exact c2 hc)

theorem invCount_filter (cfg : Config) (s s1 : State) (hp : InvPos s) (hd : InvData cfg s)
    (hi : InvCount cfg s) (h : stepFilter cfg s = some s1) : InvCount cfg s1 := by
  obtain ⟨p1, p2, p3, p4, p5, p6, p7, p8, p9, p10, p11, p12, p13, p14, p15⟩ := hp
  obtain ⟨d1, d2, d3, d4, d5⟩ := hd
  obtain ⟨c1, c2, c3, c4⟩ := hi
  cases hpc : s.fpc <;> simp only [stepFilter, hpc] at h <;> (try split at h) <;>
    simp at h <;> subst h <;>
    (try simp only [hpc, FPc.compiled, false_or, or_false, true_or, or_true, or_self,
      true_implies, reduceCtorEq, false_implies, ne_eq, not_false_eq_true, not_true_eq_false]
      at p9 p15 d2 d3 d5 c1 c2 c3) <;>
    refine ⟨?_, ?_, ?_, ?_⟩ <;> dsimp only <;>
    (try simp only [reduceCtorEq, ne_eq, not_false_eq_true, not_true_eq_false, false_or,
      or_false, true_or, or_true, or_self, true_implies, false_implies, implies_true]) <;>
    (try assumption)
  all_goals first
    | omega
    | (rw [p15]
       simp)
    | (rename_i hm
       rw [countP_take_succ _ _ _ p9, ← d2, ← c1]
       simp [hm])

theorem invCount_main (cfg : Config) (s s1 : State) (hp : InvPos s) (hi : InvCount cfg s)
    (h : stepMain cfg s = some s1) : InvCount cfg s1 := by
  obtain ⟨p1, p2, p3, p4, p5, p6, p7, p8, p9, p10, p11, p12, p13, p14, p15⟩ := hp
  obtain ⟨c1, c2, c3, c4⟩ := hi
  cases hpc : s.mpc <;> simp only [stepMain, hpc] at h <;> (try split at h) <;>
    simp at h <;> subst h <;>
    (try simp only [hpc, false_or, or_false, true_or, or_true, or_self,
      true_implies, reduceCtorEq, false_implies] at p10 p11 p12 p13) <;>
    refine ⟨?_, ?_, ?_, ?_⟩ <;> dsimp only <;> (try assumption)
  all_goals first
    | (intro _
       exact c1 (by rw [p12]; decide))
    | (intro hh
       simp at hh)

theorem invCount_step (cfg : Config) (t : Tid) (s s1 : State) (hp : InvPos s)
    (hd : InvData cfg s) (hi : InvCount cfg s) (h : step cfg t s = some s1) :
    InvCount cfg s1 := by
  cases t
  · exact invCount_reader cfg s s1 hp hi h
  · exact invCount_filter cfg s s1 hp hd hi h
  · exact invCount_main cfg s s1 hp hi h

theorem invCount_reachable (cfg : Config) (s : State) (hr : Reachable cfg s) :
    InvCount cfg s := by
  induction hr with
  | start => exact invCount_init cfg
  | next t s s1 hs h ih =>
    exact invCount_step cfg t s s1 (invPos_reachable cfg s hs) (invData_reachable cfg s hs) ih h

/-! ## Invariant 4: the output buffer -/

theorem join_lines_append (sep : List Char) (a b : List (List Char)) :
    join_lines sep (a ++ b) = join_lines sep a ++ join_lines sep b := by
  induction a with
  | nil => rfl
  | cons l ls ih => simp [join_lines, ih]

theorem filter_take_succ (re : List Char → Bool) (l : List (List Char)) (i : Nat)
    (h : i < l.length) :
    (l.take (i + 1)).filter re =
      (l.take i).filter re ++ (if re (l.getD i []) = true then [l.getD i []] else []) := by
  rw [take_succ_getD l [] i h, List.filter_append]
  by_cases hm : re (l.getD i []) = true <;> simp [List.filter_cons, hm]

theorem invOut_init (cfg : Config) : InvOut cfg init := by
  simp [InvOut, init]

theorem invOut_reader (cfg : Config) (s s1 : State) (hp : InvPos s) (hi : InvOut cfg s)
    (h : stepReader cfg s = some s1) : InvOut cfg s1 := by
  obtain ⟨p1, p2, p3, p4, p5, p6, p7, p8, p9, p10, p11, p12, p13, p14, p15⟩ := hp
  obtain ⟨o1, o2, o3, o4, o5, o6, o7, o8, o9, o10⟩ := hi
  cases hpc : s.rpc <;> simp only [stepReader, hpc] at h <;> (try split at h) <;>
    simp at h <;> subst h <;>
    refine ⟨?_, ?_, ?_, ?_, ?_, ?_, ?_, ?_, ?_, ?_⟩ <;> dsimp only [out_of] at * <;> (try assumption)
  all_goals first
    | (intro hm
       rw [take_snoc_le _ _ _ (by omega)]
       first | exact o1 hm | exact o5 hm)
    | (intro hm
       have hlt := p10 (hm.elim (fun h => Or.inr (Or.inl h))
         (fun h => Or.inr (Or.inr (Or.inl h))))
       rw [getD_snoc_lt _ _ _ _ (by omega)]
       exact o2 hm)
    | (intro hm
       have hlt := p10 (Or.inr (Or.inr (Or.inl hm)))
       rw [take_snoc_le _ _ _ (by omega), getD_snoc_lt _ _ _ _ (by omega)]
       exact o3 hm)
    | (intro hm
       have hlt := p10 (Or.inr (Or.inr (Or.inr hm)))
       rw [take_snoc_le _ _ _ (by omega)]
       exact o4 hm)
    | (intro out ho
       rw [take_snoc_le _ _ _ (by omega)]
       exact o6 out ho)
    | (intro h1 h2
       rw [take_snoc_le _ _ _ (by omega)]
       exact o7 h1 h2)
    | (intro hm
       have hlt := p10 (hm.elim (fun h => Or.inr (Or.inr (Or.inl h)))
         (fun h => Or.inr (Or.inr (Or.inr h))))
       rw [take_snoc_le _ _ _ (by omega)]
       exact o8 hm)

theorem invOut_filter (cfg : Config) (s s1 : State) (hp : InvPos s) (hi : InvOut cfg s)
    (h : stepFilter cfg s = some s1) : InvOut cfg s1 := by
  obtain ⟨p1, p2, p3, p4, p5, p6, p7, p8, p9, p10, p11, p12, p13, p14, p15⟩ := hp
  obtain ⟨o1, o2, o3, o4, o5, o6, o7, o8, o9, o10⟩ := hi
  cases hpc : s.fpc <;> simp only [stepFilter, hpc] at h <;> (try split at h) <;>
    simp at h <;> subst h <;>
    (try simp only [hpc, FPc.compiled, false_or, or_false, true_or, or_true, or_self,
      true_implies, reduceCtorEq, false_implies] at p9 p15) <;>
    refine ⟨?_, ?_, ?_, ?_, ?_, ?_, ?_, ?_, ?_, ?_⟩ <;> dsimp only [out_of] at * <;> (try assumption)
  all_goals
    (have hR : s.nR = 0 := by omega
     simp only [hR, List.take_zero, List.filter_nil] at o1 o5 o6 o7 ⊢)
  all_goals first
    | assumption
    | (intro hm
       have hlt := p10 (hm.elim (fun h => Or.inr (Or.inl h))
         (fun h => Or.inr (Or.inr (Or.inl h))))
       omega)
    | (intro hm
       have hlt := p10 (Or.inr (Or.inr (Or.inl hm)))
       omega)
    | (intro hm
       have hlt := p10 (Or.inr (Or.inr (Or.inr hm)))
       omega)
    | (intro hm
       have hlt := p10 (hm.elim (fun h => Or.inr (Or.inr (Or.inl h)))
         (fun h => Or.inr (Or.inr (Or.inr h))))
       omega)

theorem invOut_main (cfg : Config) (s s1 : State) (hp : InvPos s) (hd : InvData cfg s)
    (hi : InvOut cfg s) (h : stepMain cfg s = some s1) : InvOut cfg s1 := by
  obtain ⟨p1, p2, p3, p4, p5, p6, p7, p8, p9, p10, p11, p12, p13, p14, p15⟩ := hp
  obtain ⟨d1, d2, d3, d4, d5⟩ := hd
  obtain ⟨o1, o2, o3, o4, o5, o6, o7, o8, o9, o10⟩ := hi
  cases hpc : s.mpc <;> simp only [stepMain, hpc] at h <;> (try split at h) <;>
    simp at h <;> subst h <;>
    (try simp only [hpc, false_or, or_false, true_or, or_true, or_self, ne_eq,
      not_false_eq_true, not_true_eq_false,
      true_implies, reduceCtorEq, false_implies] at p10 p11 p12 p13 o1 o2 o3 o4 o5 o7 o8 o9 o10) <;>
    refine ⟨?_, ?_, ?_, ?_, ?_, ?_, ?_, ?_, ?_, ?_⟩ <;> dsimp only [out_of] at * <;>
    (try simp only [reduceCtorEq, ne_eq, not_false_eq_true, not_true_eq_false, false_or,
      or_false, true_or, or_true, or_self, true_implies, false_implies, implies_true]) <;>
    (try assumption)
  all_goals first
    | (intro out ho
       first
       | (simp at ho; done)
       | (rw [o9] at ho; cases ho)
       | (injection ho with ho
          rcases o5 with o5 | o5
          · rw [o5] at ho; cases ho
          · rw [o5] at ho; injection ho with ho; exact ho.symm))
    | exact Or.inl o10
    | (rw [p13]
       simp [join_lines])
    | exact Or.inl rfl
    | exact Or.inr o1
    | (rw [← d4 s.nR (le_refl _) p10, ← p3]
       assumption)
    | (rename_i hfl
       have hre : s.re (s.hist.getD s.nR []) = false := by
         rw [← d4 s.nR (le_refl _) p10, ← p3]
         simpa using hfl
       rw [filter_take_succ _ _ _ (by omega), hre]
       first | simpa using o1 | simpa using o7)
    | (rw [o1]
       simp only [Option.map_some', strcat]
       rw [p3, d1 s.nR (le_refl _) (by omega)])
    | (rw [filter_take_succ _ _ _ (by omega), o2]
       simpa using o7)
    | (rw [o3, filter_take_succ _ _ _ (by omega), o2]
       simp [strcat, join_lines_append, join_lines])

theorem invOut_step (cfg : Config) (t : Tid) (s s1 : State) (hp : InvPos s)
    (hd : InvData cfg s) (hi : InvOut cfg s) (h : step cfg t s = some s1) : InvOut cfg s1 := by
  cases t
  · exact invOut_reader cfg s s1 hp hi h
  · exact invOut_filter cfg s s1 hp hi h
  · exact invOut_main cfg s s1 hp hd hi h

theorem invOut_reachable (cfg : Config) (s : State) (hr : Reachable cfg s) : InvOut cfg s := by
  induction hr with
  | start => exact invOut_init cfg
  | next t s s1 hs h ih =>
    exact invOut_step cfg t s s1 (invPos_reachable cfg s hs) (invData_reachable cfg s hs) ih h

/-! ## Invariant 5: line lengths and the file -/

theorem fgets_chars_length (k : Nat) (s : List Char) : (fgets_chars k s).1.length ≤ k := by
  induction k generalizing s with
  | zero => simp [fgets_chars]
  | succ k ih =>
    cases s with
    | nil => simp [fgets_chars]
    | cons c s =>
      unfold fgets_chars
      split
      · simp
      · simpa using ih s

theorem c_str_length (bytes : List Char) : (c_str bytes).length ≤ bytes.length := by
  unfold c_str
  exact (List.takeWhile_prefix _).length_le

theorem fgets_line_length (s chunk rest : List Char)
    (h : fgets MAX_LOG_SIZE s = some (chunk, rest)) : (c_str chunk).length ≤ 399 := by
  unfold fgets at h
  cases s with
  | nil => simp at h
  | cons c s =>
    simp only [Option.some.injEq] at h
    have h1 := fgets_chars_length (MAX_LOG_SIZE - 1) (c :: s)
    rw [h] at h1
    have h2 := c_str_length chunk
    simp only [MAX_LOG_SIZE] at h1
    omega

theorem invLen_init : InvLen init := by
  simp [InvLen, init]

theorem invLen_reader (cfg : Config) (s s1 : State) (hi : InvLen s)
    (h : stepReader cfg s = some s1) : InvLen s1 := by
  obtain ⟨l1, l2, l3⟩ := hi
  cases hpc : s.rpc <;> simp only [stepReader, hpc] at h <;> (try split at h) <;>
    simp at h <;> subst h <;>
    (try simp only [hpc, true_implies, reduceCtorEq, false_implies] at l2 l3) <;>
    refine ⟨?_, ?_, ?_⟩ <;> dsimp only <;>
    (try simp only [reduceCtorEq, true_implies, false_implies, implies_true]) <;>
    (try assumption)
  all_goals first
    | (rw [store_same]
       exact fgets_line_length _ _ _ (by assumption))
    | (rw [store_same]
       simp only [strip_last, List.length_dropLast]
       omega)
    | (intro l hl
       rcases List.mem_append.mp hl with hl | hl
       · exact l1 l hl
       · rw [List.mem_singleton.mp hl]
         exact l3)

theorem invLen_filter (cfg : Config) (s s1 : State) (hi : InvLen s)
    (h : stepFilter cfg s = some s1) : InvLen s1 := by
  obtain ⟨l1, l2, l3⟩ := hi
  cases hpc : s.fpc <;> simp only [stepFilter, hpc] at h <;> (try split at h) <;>
    simp at h <;> subst h <;>
    refine ⟨?_, ?_, ?_⟩ <;> dsimp only <;> (try assumption)

theorem invLen_main (cfg : Config) (s s1 : State) (hp : InvPos s) (hi : InvLen s)
    (h : stepMain cfg s = some s1) : InvLen s1 := by
  obtain ⟨p1, p2, p3, p4, p5, p6, p7, p8, p9, p10, p11, p12, p13, p14, p15⟩ := hp
  obtain ⟨l1, l2, l3⟩ := hi
  cases hpc : s.mpc <;> simp only [stepMain, hpc] at h <;> (try split at h) <;>
    simp at h <;> subst h <;>
    (try simp only [hpc, false_or, or_false, true_or, or_true, or_self,
      true_implies, reduceCtorEq, false_implies] at p10 p11 p12 p13) <;>
    refine ⟨?_, ?_, ?_⟩ <;> dsimp only <;> (try assumption)
  all_goals first
    | (intro hh
       rw [p11] at hh
       cases hh)
    | (intro hh
       cases hh)

theorem invLen_reachable (cfg : Config) (s : State) (hr : Reachable cfg s) : InvLen s := by
  induction hr with
  | start => exact invLen_init
  | next t s s1 hs h ih =>
    cases t
    · exact invLen_reader cfg s s1 ih h
    · exact invLen_filter cfg s s1 ih h
    · exact invLen_main cfg s s1 (invPos_reachable cfg s hs) ih h

/-! ## Invariant 6: the lines handed over are the lines of the file -/

theorem fgets_chars_rest_le (k : Nat) (s : List Char) :
    (fgets_chars k s).2.length ≤ s.length := by
  induction k generalizing s with
  | zero => simp [fgets_chars]
  | succ k ih =>
    cases s with
    | nil => simp [fgets_chars]
    | cons c s =>
      unfold fgets_chars
      split
      · simp
      · have := ih s
        simp only [List.length_cons]
        omega

theorem fgets_rest_lt (s chunk rest : List Char)
    (h : fgets MAX_LOG_SIZE s = some (chunk, rest)) : rest.length < s.length := by
  unfold fgets at h
  cases s with
  | nil => simp at h
  | cons c s =>
    simp only [Option.some.injEq, MAX_LOG_SIZE] at h
    have hk : (400 - 1 : Nat) = 398 + 1 := rfl
    rw [hk] at h
    unfold fgets_chars at h
    split at h
    · simp only [Prod.mk.injEq] at h
      rw [← h.2]
      simp
    · simp only [Prod.mk.injEq] at h
      rw [← h.2]
      have := fgets_chars_rest_le 398 s
      simp only [List.length_cons]
      omega

theorem read_all_fuel_stable (n m : Nat) (s : List Char) (hn : s.length ≤ n)
    (hm : s.length ≤ m) : read_all_fuel n s = read_all_fuel m s := by
  induction n generalizing m s with
  | zero =>
    have hs : s = [] := List.length_eq_zero.mp (by omega)
    subst hs
    cases m with
    | zero => rfl
    | succ m => simp [read_all_fuel, fgets]
  | succ n ih =>
    cases m with
    | zero =>
      have hs : s = [] := List.length_eq_zero.mp (by omega)
      subst hs
      simp [read_all_fuel, fgets]
    | succ m =>
      unfold read_all_fuel
      cases hf : fgets MAX_LOG_SIZE s with
      | none => rfl
      | some p =>
        obtain ⟨chunk, rest⟩ := p
        have hlt := fgets_rest_lt s chunk rest hf
        simp only
        rw [ih m rest (by omega) (by omega)]

theorem read_all_some (s chunk rest : List Char)
    (h : fgets MAX_LOG_SIZE s = some (chunk, rest)) :
    read_all s = strip_last (c_str chunk) :: read_all rest := by
  have hlt := fgets_rest_lt s chunk rest h
  unfold read_all
  cases hs : s.length with
  | zero => omega
  | succ n =>
    rw [read_all_fuel, h]
    simp only
    rw [read_all_fuel_stable n rest.length rest (by omega) (le_refl _)]

theorem read_all_none (s : List Char) (h : fgets MAX_LOG_SIZE s = none) : read_all s = [] := by
  unfold read_all
  cases hs : s.length with
  | zero => rfl
  | succ n => rw [read_all_fuel, h]

theorem invFile_init (cfg : Config) : InvFile cfg init := by
  simp [InvFile, init]

theorem invFile_reader (cfg : Config) (s s1 : State) (hp : InvPos s) (hi : InvFile cfg s)
    (h : stepReader cfg s = some s1) : InvFile cfg s1 := by
  obtain ⟨p1, p2, p3, p4, p5, p6, p7, p8, p9, p10, p11, p12, p13, p14, p15⟩ := hp
  obtain ⟨f1, f2, f3, f4⟩ := hi
  cases hpc : s.rpc <;> simp only [stepReader, hpc] at h <;> (try split at h) <;>
    simp at h <;> subst h <;>
    (try simp only [hpc, false_or, or_false, true_or, or_true, or_self,
      true_implies, reduceCtorEq, false_implies] at p14 f1 f2 f3) <;>
    refine ⟨?_, ?_, ?_, ?_⟩ <;> dsimp only <;>
    (try simp only [reduceCtorEq, false_or, or_false, true_or, or_true, or_self,
      true_implies, false_implies, implies_true]) <;>
    (try assumption)
  all_goals first
    | (rename_i content hfile
       rw [p14]
       simp [file_lines, hfile])
    | (rename_i chunk rest hf
       rw [store_same, f1, read_all_some _ _ _ hf])
    | (rw [store_same]
       exact f2)
    | (rw [f3]
       simp)

theorem invFile_filter (cfg : Config) (s s1 : State) (hi : InvFile cfg s)
    (h : stepFilter cfg s = some s1) : InvFile cfg s1 := by
  obtain ⟨f1, f2, f3, f4⟩ := hi
  cases hpc : s.fpc <;> simp only [stepFilter, hpc] at h <;> (try split at h) <;>
    simp at h <;> subst h <;>
    refine ⟨?_, ?_, ?_, ?_⟩ <;> dsimp only <;> (try assumption)

theorem invFile_main (cfg : Config) (s s1 : State) (hp : InvPos s) (hi : InvFile cfg s)
    (h : stepMain cfg s = some s1) : InvFile cfg s1 := by
  obtain ⟨p1, p2, p3, p4, p5, p6, p7, p8, p9, p10, p11, p12, p13, p14, p15⟩ := hp
  obtain ⟨f1, f2, f3, f4⟩ := hi
  cases hpc : s.mpc <;> simp only [stepMain, hpc] at h <;> (try split at h) <;>
    simp at h <;> subst h <;>
    (try simp only [hpc, false_or, or_false, true_or, or_true, or_self,
      true_implies, reduceCtorEq, false_implies] at p10 p11 p12 p13) <;>
    refine ⟨?_, ?_, ?_, ?_⟩ <;> dsimp only <;>
    (try simp only [reduceCtorEq, false_or, or_false, true_or, or_true, or_self,
      true_implies, false_implies, implies_true]) <;>
    (try assumption)
  all_goals first
    | (intro hh
       rw [p11] at hh
       simp at hh)

theorem invFile_reachable (cfg : Config) (s : State) (hr : Reachable cfg s) :
    InvFile cfg s := by
  induction hr with
  | start => exact invFile_init cfg
  | next t s s1 hs h ih =>
    cases t
    · exact invFile_reader cfg s s1 (invPos_reachable cfg s hs) ih h
    · exact invFile_filter cfg s s1 ih h
    · exact invFile_main cfg s s1 (invPos_reachable cfg s hs) ih h

/-! ## Runs and reachability -/

theorem reachable_run_from (cfg : Config) (sched : List Tid) (s : State)
    (hr : Reachable cfg s) : Reachable cfg (run cfg sched s) := by
  induction sched generalizing s with
  | nil => exact hr
  | cons t ts ih =>
    unfold run
    cases h : step cfg t s with
    | none => exact ih s hr
    | some s1 => exact ih s1 (Reachable.next t s s1 hr h)

theorem reachable_run (cfg : Config) (sched : List Tid) :
    Reachable cfg (run cfg sched init) :=
  reachable_run_from cfg sched init Reachable.start

/-! ## Consequences of the invariants -/

theorem accepted_le_quota (cfg : Config) (hmax : 0 ≤ cfg.max_lines) (s : State)
    (hr : Reachable cfg s) (n : Nat) (hn : n ≤ s.nF) :
    ((((s.hist.take n).filter s.re).length : Nat) : Int) ≤ cfg.max_lines := by
  obtain ⟨c1, c2, _, c4⟩ := invCount_reachable cfg s hr
  have h1 : ((s.hist.take n).filter s.re).length ≤ (s.hist.take s.nF).countP s.re := by
    rw [← List.countP_eq_length_filter]
    exact List.Sublist.countP_le s.re (List.take_sublist_take_left s.hist hn)
  have h2 : (s.hist.take s.nF).countP s.re ≤ (s.hist.take (s.nF + 1)).countP s.re :=
    List.Sublist.countP_le s.re (List.take_sublist_take_left s.hist (Nat.le_succ _))
  by_cases hpc : s.fpc = .incr
  · have := c2 hpc
    omega
  · have := c1 hpc
    omega

theorem join_lines_length_le (sep : List Char) (ls : List (List Char)) (b : Nat)
    (h : ∀ l ∈ ls, l.length ≤ b) :
    (join_lines sep ls).length ≤ ls.length * (b + sep.length) := by
  induction ls with
  | nil => simp [join_lines]
  | cons l ls ih =>
    have h1 := h l (List.mem_cons_self _ _)
    have h2 := ih (fun x hx => h x (List.mem_cons_of_mem _ hx))
    simp only [join_lines, List.length_append, List.length_cons, Nat.add_mul, Nat.one_mul]
    omega

theorem out_of_length_le (cfg : Config) (s : State) (hr : Reachable cfg s) (n : Nat) :
    (out_of cfg s n).length ≤
      ((s.hist.take n).filter s.re).length * (398 + cfg.separator.length) := by
  obtain ⟨l1, _, _⟩ := invLen_reachable cfg s hr
  unfold out_of
  apply join_lines_length_le
  intro l hl
  exact l1 l (List.mem_of_mem_take (List.mem_of_mem_filter hl))

/-! ## The claims -/

/-- C1: for every input with `max_lines >= 0` and every interleaving of the
three stages, the number of lines appended to the output is at most
`max_lines`, and a returned result is made of at most `max_lines` lines, each
followed by the separator. -/
theorem appended_le_max_lines (cfg : Config) (hmax : 0 ≤ cfg.max_lines) (s : State)
    (hr : Reachable cfg s) :
    (s.appended : Int) ≤ cfg.max_lines ∧
      ∀ out, s.result = some (some out) →
        ∃ ls : List (List Char), out = join_lines cfg.separator ls ∧
          (ls.length : Int) ≤ cfg.max_lines := by
  obtain ⟨_, _, _, p4, _, _, _, _, _, p10, _, _, _, _, _⟩ := invPos_reachable cfg s hr
  obtain ⟨_, _, _, _, _, o6, o7, o8, _, _⟩ := invOut_reachable cfg s hr
  constructor
  · by_cases h1 : s.mpc = .cat_sep
    · rw [o8 (Or.inl h1)]
      exact accepted_le_quota cfg hmax s hr _ (p10 (Or.inr (Or.inr (Or.inl h1))))
    · by_cases h2 : s.mpc = .incr
      · rw [o8 (Or.inr h2)]
        exact accepted_le_quota cfg hmax s hr _ (p10 (Or.inr (Or.inr (Or.inr h2))))
      · rw [o7 h1 h2]
        exact accepted_le_quota cfg hmax s hr _ p4
  · intro out ho
    exact ⟨(s.hist.take s.nR).filter s.re, o6 out ho, accepted_le_quota cfg hmax s hr _ p4⟩

/-- Witness for C1: the run of scenario A in which the stages work in turn
appends three lines, within the quota of ten. -/
theorem appended_le_max_lines_witness :
    (run cfgA sched_in_turn init).appended = 3 ∧
      ((run cfgA sched_in_turn init).appended : Int) ≤ cfgA.max_lines :=
  ⟨by decide,
    (appended_le_max_lines cfgA (by decide) (run cfgA sched_in_turn init)
      (reachable_run cfgA sched_in_turn)).1⟩

/-- C4: in every reachable state, with `W`, `F`, `R` the numbers of lines
written by the Reader, classified by the Filter and consumed by the
Assembler, `R <= F <= W <= R + QUEUE_SIZE - 1`, the three positions are `W`,
`F`, `R` modulo `QUEUE_SIZE` and lie in `[0, QUEUE_SIZE)`; the Filter
classifies and the Assembler consumes only slots already produced by the
stage before, and the slot the Reader writes holds no line that the
Assembler has still to consume. -/
theorem ring_buffer_invariant (cfg : Config) (s : State) (hr : Reachable cfg s) :
    s.nR ≤ s.nF ∧ s.nF ≤ s.hist.length ∧ s.hist.length ≤ s.nR + QUEUE_SIZE - 1 ∧
    s.queue.write_pos = ((s.hist.length % QUEUE_SIZE : Nat) : Int) ∧
    s.queue.filter_pos = ((s.nF % QUEUE_SIZE : Nat) : Int) ∧
    s.queue.read_pos = ((s.nR % QUEUE_SIZE : Nat) : Int) ∧
    (0 ≤ s.queue.write_pos ∧ s.queue.write_pos < QUEUE_SIZE) ∧
    (0 ≤ s.queue.filter_pos ∧ s.queue.filter_pos < QUEUE_SIZE) ∧
    (0 ≤ s.queue.read_pos ∧ s.queue.read_pos < QUEUE_SIZE) ∧
    (s.fpc = .exec ∨ s.fpc = .setflag ∨ s.fpc = .incr → s.nF < s.hist.length) ∧
    (s.mpc = .chk_flag ∨ s.mpc = .cat_line ∨ s.mpc = .cat_sep ∨ s.mpc = .incr →
      s.nR < s.nF) ∧
    (s.rpc = .fgets ∨ s.rpc = .strip ∨ s.rpc = .incr →
      ∀ i : Nat, s.nR ≤ i → i < s.hist.length →
        ((i % QUEUE_SIZE : Nat) : Int) ≠ s.queue.write_pos) := by
  obtain ⟨p1, p2, p3, p4, p5, p6, _, p8, p9, p10, _, _, _, _, _⟩ := invPos_reachable cfg s hr
  simp only [QUEUE_SIZE]
  refine ⟨p4, p5, by omega, p1, p2, p3, by omega, by omega, by omega, p9, p10, ?_⟩
  intro hpc i hi1 hi2
  have hw := p8 hpc
  rw [p1]
  exact slot_ne i _ s.nR hi1 hi2 (by omega)

/-- Witness for C4: the state at the end of the run of scenario A. -/
theorem ring_buffer_invariant_witness :
    (run cfgA sched_in_turn init).nR = 3 ∧ (run cfgA sched_in_turn init).nF = 3 ∧
      (run cfgA sched_in_turn init).hist.length = 3 ∧
      (run cfgA sched_in_turn init).queue.write_pos = 3 ∧
      (run cfgA sched_in_turn init).nR ≤ (run cfgA sched_in_turn init).nF :=
  ⟨by decide, by decide, by decide, by decide,
    (ring_buffer_invariant cfgA (run cfgA sched_in_turn init)
      (reachable_run cfgA sched_in_turn)).1⟩

/-- C10: for `max_lines >= 0`, at every point of every interleaving the
output string has at most `max_lines * (MAX_LOG_SIZE + length separator)`
characters, so with its terminator it fits the allocation of
`write_to_buffer`; every line handed over by `read_from_file`, and every slot
that holds one, has at most `MAX_LOG_SIZE - 2` characters. -/
theorem out_buffer_fits (cfg : Config) (hmax : 0 ≤ cfg.max_lines) (s : State)
    (hr : Reachable cfg s) :
    (∀ out, s.out_buffer = some out →
      (out.length : Int) + 1 ≤
        cfg.max_lines * ((MAX_LOG_SIZE : Int) + cfg.separator.length) + 1) ∧
    (∀ l ∈ s.hist, l.length ≤ MAX_LOG_SIZE - 2) ∧
    (∀ i : Nat, s.nR ≤ i → i < s.hist.length →
      (s.queue.buffer ((i % QUEUE_SIZE : Nat) : Int)).length ≤ MAX_LOG_SIZE - 2) := by
  obtain ⟨_, _, _, p4, p5, _, _, _, _, p10, _, _, _, _, _⟩ := invPos_reachable cfg s hr
  obtain ⟨d1, _, _, _, _⟩ := invData_reachable cfg s hr
  obtain ⟨o1, o2, o3, o4, o5, _, _, _, _, o10⟩ := invOut_reachable cfg s hr
  obtain ⟨l1, _, _⟩ := invLen_reachable cfg s hr
  have hget : ∀ i : Nat, i < s.hist.length → (s.hist.getD i []).length ≤ 398 := by
    intro i hi
    apply l1
    rw [List.getD_eq_getElem _ _ hi]
    exact List.getElem_mem hi
  have hbound : ∀ n : Nat, n ≤ s.nF →
      ((out_of cfg s n).length : Int) ≤ cfg.max_lines * (398 + cfg.separator.length) := by
    intro n hn
    have h1 := out_of_length_le cfg s hr n
    have h2 := accepted_le_quota cfg hmax s hr n hn
    have h3 : ((((s.hist.take n).filter s.re).length * (398 + cfg.separator.length) : Nat) : Int)
        ≤ cfg.max_lines * (398 + cfg.separator.length) := by
      push_cast
      exact mul_le_mul_of_nonneg_right h2 (by positivity)
    exact le_trans (by exact_mod_cast h1) h3
  have hsep : (0 : Int) ≤ cfg.separator.length := by positivity
  refine ⟨?_, ?_, ?_⟩
  · intro out hout
    simp only [MAX_LOG_SIZE]
    have key : ∀ n : Nat, n ≤ s.nF → out = out_of cfg s n →
        (out.length : Int) + 1 ≤ cfg.max_lines * (((400 : Nat) : Int) + cfg.separator.length) + 1 := by
      intro n hn he
      have := hbound n hn
      rw [he]
      push_cast
      nlinarith
    cases hpc : s.mpc
    case create | spawn_reader | spawn_filter | spawn_filter_fail | alloc =>
      rw [o10 (by rw [hpc]; decide)] at hout
      cases hout
    case cat_sep =>
      have hlt := p10 (Or.inr (Or.inr (Or.inl hpc)))
      have ho := o3 hpc
      rw [hout] at ho
      injection ho with ho
      have hre := o2 (Or.inr hpc)
      have h1 := out_of_length_le cfg s hr s.nR
      have h2 := accepted_le_quota cfg hmax s hr (s.nR + 1) hlt
      rw [filter_take_succ _ _ _ (by omega), hre] at h2
      simp only [if_true, List.length_append, List.length_singleton] at h2
      have h3 := hget s.nR (by omega)
      rw [ho, List.length_append]
      push_cast at h1 h2 ⊢
      have h4 : (((s.hist.take s.nR).filter s.re).length : Int) * (398 + cfg.separator.length)
          ≤ (cfg.max_lines - 1) * (398 + cfg.separator.length) :=
        mul_le_mul_of_nonneg_right (by omega) (by positivity)
      have h5 : ((out_of cfg s s.nR).length : Int) ≤
          (((s.hist.take s.nR).filter s.re).length : Int) * (398 + cfg.separator.length) := by
        exact_mod_cast h1
      nlinarith
    case incr =>
      have ho := o4 hpc
      rw [hout] at ho
      injection ho with ho
      exact key _ (p10 (Or.inr (Or.inr (Or.inr hpc)))) ho
    case alloc_fail | free | ret | done =>
      rcases o5 (by rw [hpc]; decide) with ho | ho
      · rw [hout] at ho; cases ho
      · rw [hout] at ho
        injection ho with ho
        exact key _ p4 ho
    all_goals
      have ho := o1 (by rw [hpc]; decide)
      rw [hout] at ho
      injection ho with ho
      exact key _ p4 ho
  · intro l hl
    exact l1 l hl
  · intro i hi1 hi2
    simp only [QUEUE_SIZE, MAX_LOG_SIZE]
    rw [d1 i hi1 hi2]
    exact hget i hi2

/-- Witness for C10: the output of the run of scenario A has 21 characters,
within the 10 * 401 + 1 bytes allocated. -/
theorem out_buffer_fits_witness :
    (run cfgA sched_in_turn init).out_buffer = some "apple,banana,avocado,".toList ∧
      ((21 : Nat) : Int) + 1 ≤
        cfgA.max_lines * ((MAX_LOG_SIZE : Int) + cfgA.separator.length) + 1 :=
  ⟨by decide,
    (out_buffer_fits cfgA (by decide) (run cfgA sched_in_turn init)
      (reachable_run cfgA sched_in_turn)).1 "apple,banana,avocado,".toList (by decide)⟩

theorem fgets_chars_line (l rest : List Char) (k : Nat) (hnl : '\n' ∉ l)
    (hk : l.length < k) : fgets_chars k (l ++ '\n' :: rest) = (l ++ ['\n'], rest) := by
  induction l generalizing k with
  | nil =>
    cases k with
    | zero => omega
    | succ k => simp [fgets_chars]
  | cons c l ih =>
    cases k with
    | zero => omega
    | succ k =>
      have hc : c ≠ '\n' := fun h => hnl (by simp [h])
      have hl : '\n' ∉ l := fun h => hnl (List.mem_cons_of_mem _ h)
      simp only [List.length_cons] at hk
      have hrec := ih k hl (by omega)
      rw [List.cons_append, fgets_chars, if_neg hc, hrec]
      rfl

theorem c_str_line (l : List Char) (hnul : NUL ∉ l) : c_str (l ++ ['\n']) = l ++ ['\n'] := by
  unfold c_str
  rw [List.takeWhile_eq_self_iff]
  intro c hc
  rcases List.mem_append.mp hc with h | h
  · have : c ≠ NUL := fun he => hnul (he ▸ h)
    simpa using this
  · rw [List.mem_singleton.mp h]
    decide

theorem read_all_file_of_lines (ls : List (List Char))
    (h : ∀ l ∈ ls, '\n' ∉ l ∧ NUL ∉ l ∧ l.length + 1 < MAX_LOG_SIZE) :
    read_all (file_of_lines ls) = ls := by
  induction ls with
  | nil => rfl
  | cons l ls ih =>
    obtain ⟨h1, h2, h3⟩ := h l (List.mem_cons_self _ _)
    have hf : fgets MAX_LOG_SIZE (file_of_lines (l :: ls)) =
        some (l ++ ['\n'], file_of_lines ls) := by
      have hne : file_of_lines (l :: ls) = l ++ '\n' :: file_of_lines ls := rfl
      rw [hne]
      cases hl : l ++ '\n' :: file_of_lines ls with
      | nil => simp at hl
      | cons c t =>
        simp only [fgets]
        rw [← hl, fgets_chars_line l _ _ h1 (by simp only [MAX_LOG_SIZE] at h3 ⊢; omega)]
    rw [read_all_some _ _ _ hf, c_str_line l h2, ih (fun x hx => h x (List.mem_cons_of_mem _ hx))]
    simp [strip_last]

/-- C2: for every file made of newline-terminated lines shorter than the
per-line bound (a line with its newline is shorter than `MAX_LOG_SIZE`; lines
are text, without newline or NUL inside), every mask, separator and
`max_lines`, and every interleaving, a result returned by `log_search` is the
concatenation of `line ++ separator` over a sub-list of the lines of the
file, in file order, every line of which the compiled pattern accepts. -/
theorem result_is_matching_sublist (cfg : Config) (ls : List (List Char))
    (hfile : cfg.file = some (file_of_lines ls))
    (hls : ∀ l ∈ ls, '\n' ∉ l ∧ NUL ∉ l ∧ l.length + 1 < MAX_LOG_SIZE)
    (s : State) (hr : Reachable cfg s) (out : List Char)
    (hres : s.result = some (some out)) :
    ∃ sub : List (List Char), sub.Sublist ls ∧
      (∀ l ∈ sub, ∃ re, cfg.regcomp (re_pattern cfg.mask) = some re ∧ re l = true) ∧
      out = join_lines cfg.separator sub := by
  obtain ⟨_, _, _, p4, _, _, _, _, _, _, _, _, _, _, _⟩ := invPos_reachable cfg s hr
  obtain ⟨_, _, _, _, d5⟩ := invData_reachable cfg s hr
  obtain ⟨_, _, _, _, _, o6, _, _, _, _⟩ := invOut_reachable cfg s hr
  obtain ⟨_, _, _, f4⟩ := invFile_reachable cfg s hr
  have hlines : file_lines cfg = ls := by
    simp only [file_lines, hfile]
    exact read_all_file_of_lines ls hls
  rw [hlines] at f4
  refine ⟨(s.hist.take s.nR).filter s.re, ?_, ?_, o6 out hres⟩
  · exact (List.filter_sublist _).trans ((List.take_sublist _ _).trans f4.sublist)
  · intro l hl
    have hmem := List.mem_filter.mp hl
    have hpos : 0 < s.nR := by
      rcases Nat.eq_zero_or_pos s.nR with h0 | h0
      · rw [h0] at hmem
        simp at hmem
      · exact h0
    exact ⟨s.re, d5 (Or.inl (by omega)), hmem.2⟩

/-- The file of scenario A is made of the three lines. -/
theorem cfgA_file : cfgA.file = some (file_of_lines
    ["apple".toList, "banana".toList, "avocado".toList]) := by
  decide

/-- Witness for C2: scenario A, the run in which the stages work in turn. -/
theorem result_is_matching_sublist_witness :
    (run cfgA sched_in_turn init).result = some (some "apple,banana,avocado,".toList) ∧
    ∃ sub : List (List Char),
      sub.Sublist ["apple".toList, "banana".toList, "avocado".toList] ∧
      (∀ l ∈ sub, ∃ re, cfgA.regcomp (re_pattern cfgA.mask) = some re ∧ re l = true) ∧
      "apple,banana,avocado,".toList = join_lines cfgA.separator sub :=
  ⟨by decide,
    result_is_matching_sublist cfgA ["apple".toList, "banana".toList, "avocado".toList]
      cfgA_file (by decide) (run cfgA sched_in_turn init) (reachable_run cfgA sched_in_turn)
      "apple,banana,avocado,".toList (by decide)⟩

/-- C3 fails on the code.  The file of `cfgRace` has one line, which the
pattern accepts, fewer than `max_lines = 2`; in the interleaving `sched_race`
all three stages stop without failure and `log_search` returns the empty
string: the matching line is lost. -/
theorem race_loses_matching_line :
    file_lines cfgRace = ["a".toList] ∧
    (cfgRace.regcomp (re_pattern cfgRace.mask)).map (fun re => re "a".toList) = some true ∧
    (run cfgRace sched_race init).rpc = .done ∧
    (run cfgRace sched_race init).fpc = .done ∧
    (run cfgRace sched_race init).mpc = .done ∧
    (run cfgRace sched_race init).queue.is_failed = false ∧
    (run cfgRace sched_race init).hist = ["a".toList] ∧
    (run cfgRace sched_race init).nF = 0 ∧
    (run cfgRace sched_race init).result = some (some []) := by
  decide

/-- C5 fails on the code.  When the file cannot be opened, or the mask does
not compile, the stage sets `is_failed`, yet `log_search` returns the
(empty) output string and not NULL. -/
theorem failed_search_returns_string :
    (run cfgMissing sched_failure init).queue.is_failed = true ∧
    (run cfgMissing sched_failure init).result = some (some []) ∧
    cfgBadMask.regcomp (re_pattern cfgBadMask.mask) = none ∧
    (run cfgBadMask sched_failure init).queue.is_failed = true ∧
    (run cfgBadMask sched_failure init).result = some (some []) := by
  refine ⟨by decide, by decide, rfl, by decide, by decide⟩

/-- C6 fails on the code.  In `sched_quota` the queue has been released and
`log_search` has returned while the Reader is still in its loop, its next
step a read of `write_pos` and `read_pos`; in `sched_missing_early` the same
holds with the Filter, which has yet to take its first step. -/
theorem stage_runs_after_release :
    (run cfgQuota sched_quota init).freed = true ∧
    (run cfgQuota sched_quota init).result = some (some "apple,".toList) ∧
    (run cfgQuota sched_quota init).rpc = .chk_full1 ∧
    (stepReader cfgQuota (run cfgQuota sched_quota init)).isSome = true ∧
    (run cfgMissing sched_missing_early init).freed = true ∧
    (run cfgMissing sched_missing_early init).result = some (some []) ∧
    (run cfgMissing sched_missing_early init).fpc = .compile ∧
    (stepFilter cfgMissing (run cfgMissing sched_missing_early init)).isSome = true := by
  decide

/-- C7 fails on the code: the pattern built from `a*` accepts `banana`, and
the run of scenario A in which the stages work in turn returns
`apple,banana,avocado,`, not `apple,avocado,`. -/
theorem scenario_A_accepts_banana :
    (bre_regcomp (re_pattern "a*".toList)).map (fun re => re "banana".toList) = some true ∧
    (run cfgA sched_in_turn init).result = some (some "apple,banana,avocado,".toList) ∧
    (run cfgA sched_in_turn init).result ≠ some (some "apple,avocado,".toList) := by
  decide

/-- C7 as amended: the pattern built from `a*` is `a.*`; `regexec`, which
looks for a match anywhere in the line, accepts `apple`, `banana` and
`avocado` with it; and whenever `log_search` returns a string after the
Assembler has consumed the three lines, the string is
`apple,banana,avocado,`. -/
theorem scenario_A_result (s : State) (hr : Reachable cfgA s) (out : List Char)
    (hres : s.result = some (some out)) (hall : s.nR = 3) :
    re_pattern "a*".toList = "a.*".toList ∧
    (bre_regcomp "a.*".toList).map (fun re =>
      ["apple".toList, "banana".toList, "avocado".toList].map re) = some [true, true, true] ∧
    out = "apple,banana,avocado,".toList := by
  refine ⟨by decide, by decide, ?_⟩
  obtain ⟨_, _, _, p4, p5, _, _, _, _, _, _, _, _, _, _⟩ := invPos_reachable cfgA s hr
  obtain ⟨_, _, _, _, d5⟩ := invData_reachable cfgA s hr
  obtain ⟨_, _, _, _, _, o6, _, _, _, _⟩ := invOut_reachable cfgA s hr
  obtain ⟨_, _, _, f4⟩ := invFile_reachable cfgA s hr
  have hlines : file_lines cfgA = ["apple".toList, "banana".toList, "avocado".toList] := by
    decide
  have hcomp : cfgA.regcomp (re_pattern cfgA.mask) = some (bre_exec patternA) := rfl
  have hre : s.re = bre_exec patternA := by
    have h := d5 (Or.inl (by omega))
    rw [hcomp] at h
    injection h with h
    exact h.symm
  rw [hlines] at f4
  have hhist : s.hist = ["apple".toList, "banana".toList, "avocado".toList] := by
    apply List.IsPrefix.eq_of_length_le f4
    simp only [List.length_cons, List.length_nil]
    omega
  rw [o6 out hres, out_of, hhist, hre, hall]
  decide

/-- Witness for the amended C7: the run in which the stages work in turn. -/
theorem scenario_A_result_witness :
    (run cfgA sched_in_turn init).nR = 3 ∧
    (run cfgA sched_in_turn init).result = some (some "apple,banana,avocado,".toList) ∧
    "apple,banana,avocado,".toList = "apple,banana,avocado,".toList :=
  ⟨by decide, by decide,
    (scenario_A_result (run cfgA sched_in_turn init) (reachable_run cfgA sched_in_turn)
      "apple,banana,avocado,".toList (by decide) (by decide)).2.2⟩

/-- A mask without `?` and `*` is its own pattern: no character is escaped. -/
theorem re_pattern_literal (mask : List Char) (h1 : '?' ∉ mask) (h2 : '*' ∉ mask) :
    re_pattern mask = mask := by
  induction mask with
  | nil => rfl
  | cons c m ih =>
    have hc1 : c ≠ '?' := fun h => h1 (by simp [h])
    have hc2 : c ≠ '*' := fun h => h2 (by simp [h])
    rw [re_pattern, if_neg hc1, if_neg hc2,
      ih (fun h => h1 (List.mem_cons_of_mem _ h)) (fun h => h2 (List.mem_cons_of_mem _ h))]

/-- C8 fails on the code: the pattern built from the mask `a.b` is `a.b`
itself, the dot not escaped, and it matches the line `axb` as well as the
line `a.b`. -/
theorem mask_dot_not_escaped :
    re_pattern "a.b".toList = "a.b".toList ∧
    (bre_regcomp (re_pattern "a.b".toList)).map (fun re => re "a.b".toList) = some true ∧
    (bre_regcomp (re_pattern "a.b".toList)).map (fun re => re "axb".toList) = some true := by
  decide

theorem takeWhile_length_eq_iff (p : Char → Bool) (l : List Char) :
    (l.takeWhile p).length = l.length ↔ l.all p = true := by
  rw [List.all_eq_true, ← List.takeWhile_eq_self_iff]
  constructor
  · intro h
    exact (List.takeWhile_prefix p).eq_of_length h
  · intro h
    rw [h]

/-- The test of `main` on a non-empty argument: `strtol` consumes all of it
just when a base-10 integer follows its leading white space. -/
theorem strtol_spans_iff (arg : List Char) (hne : arg ≠ []) :
    arg.length = (strtol arg).2 ↔ spec_base10_integer (arg.dropWhile isspace) = true := by
  have hsplit : arg.length = (arg.takeWhile isspace).length + (arg.dropWhile isspace).length := by
    conv_lhs => rw [← List.takeWhile_append_dropWhile isspace arg]
    rw [List.length_append]
  have hpos : 0 < arg.length := List.length_pos.mpr hne
  unfold strtol spec_base10_integer
  simp only []
  generalize arg.dropWhile isspace = rest at hsplit ⊢
  generalize (arg.takeWhile isspace).length = nb at hsplit ⊢
  by_cases hs : rest.head? = some '-' ∨ rest.head? = some '+'
  · have hr : rest.length = rest.tail.length + 1 := by
      cases rest with
      | nil => simp at hs
      | cons c t => simp
    simp only [hs, if_true]
    by_cases hd : rest.tail.takeWhile Char.isDigit = []
    · simp only [hd, if_true]
      constructor
      · intro h; omega
      · intro h
        simp only [Bool.and_eq_true, Bool.not_eq_true', List.isEmpty_eq_false] at h
        have := (takeWhile_length_eq_iff Char.isDigit rest.tail).mpr h.2
        rw [hd] at this
        exact absurd (List.length_eq_zero.mp this.symm) (by simpa using h.1)
    · simp only [hd, if_false]
      rw [Bool.and_eq_true, ← takeWhile_length_eq_iff]
      constructor
      · intro h
        refine ⟨?_, by omega⟩
        cases ht : rest.tail with
        | nil => rw [ht] at hd; simp at hd
        | cons c t => rfl
      · intro h
        omega
  · simp only [hs, if_false]
    by_cases hd : rest.takeWhile Char.isDigit = []
    · simp only [hd, if_true]
      constructor
      · intro h; omega
      · intro h
        simp only [Bool.and_eq_true, Bool.not_eq_true', List.isEmpty_eq_false] at h
        have := (takeWhile_length_eq_iff Char.isDigit rest).mpr h.2
        rw [hd] at this
        exact absurd (List.length_eq_zero.mp this.symm) (by simpa using h.1)
    · simp only [hd, if_false]
      rw [Bool.and_eq_true, ← takeWhile_length_eq_iff]
      constructor
      · intro h
        refine ⟨?_, by omega⟩
        cases ht : rest with
        | nil => rw [ht] at hd; simp at hd
        | cons c t => rfl
      · intro h
        omega

/-- An argument that starts with white space is not a base-10 integer
spanning the whole argument. -/
theorem spec_base10_integer_blank (c : Char) (cs : List Char) (hc : isspace c = true) :
    spec_base10_integer (c :: cs) = false := by
  simp only [isspace, Bool.or_eq_true, decide_eq_true_eq] at hc
  rcases hc with ((((h | h) | h) | h) | h) | h <;> subst h <;>
    simp [spec_base10_integer, Char.isDigit]

/-- Without leading white space in front of an integer, the two readings of
"base-10 integer" agree. -/
theorem spec_base10_integer_dropWhile (arg : List Char)
    (hb : blank_led_integer arg = false) :
    spec_base10_integer (arg.dropWhile isspace) = spec_base10_integer arg := by
  cases arg with
  | nil => rfl
  | cons c cs =>
    by_cases hc : isspace c = true
    · rw [spec_base10_integer_blank c cs hc]
      simpa [blank_led_integer, List.takeWhile_cons, hc] using hb
    · rw [List.dropWhile_cons_of_neg hc]

/-- C9 fails on the code: with valid arguments and a failing search `main`
returns exit code 0, not 1. -/
theorem main_returns_0_on_failed_search :
    spec_args_invalid argv_valid = false ∧ main argv_valid search_fails = 0 := by
  decide

/-- C9 as amended: `main` returns 1 if the arguments are invalid (`argc` is
not 6, `max_lines` is not a base-10 integer spanning the whole argument, or
`scan_tail` is neither `true` nor `false`) and 0 otherwise, whether or not
`log_search` fails.  Stated for every argument vector but those of six
entries, with `scan_tail` being `true` or `false`, whose `max_lines` argument
is empty or is an integer with white space in front of it. -/
theorem main_exit_code (argv : List (List Char))
    (log_search : List Char → List Char → Int → Bool → List Char → Option (List Char))
    (h3 : argv.length = 6 →
      argv.getD 4 [] = "true".toList ∨ argv.getD 4 [] = "false".toList →
      argv.getD 3 [] ≠ [] ∧ blank_led_integer (argv.getD 3 []) = false) :
    main argv log_search = if spec_args_invalid argv = true then 1 else 0 := by
  unfold main spec_args_invalid
  simp only [Bool.or_eq_true, Bool.and_eq_true, bne_iff_ne, ne_eq, Bool.not_eq_true']
  generalize argv.getD 3 [] = a3 at h3 ⊢
  generalize argv.getD 4 [] = a4 at h3 ⊢
  generalize argv.getD 1 [] = a1
  generalize argv.getD 2 [] = a2
  generalize argv.getD 5 [] = a5
  by_cases hlen : argv.length = 6
  · rw [if_neg (not_not.mpr hlen)]
    by_cases hv : a4 = "true".toList ∨ a4 = "false".toList
    · have hspan := strtol_spans_iff a3 (h3 hlen hv).1
      rw [spec_base10_integer_dropWhile a3 (h3 hlen hv).2] at hspan
      by_cases hb : spec_base10_integer a3 = true
      · rw [if_neg (not_not.mpr (hspan.mpr hb))]
        by_cases ht : a4 = "true".toList
        · rw [if_pos ht, if_neg]
          · cases log_search a1 a2 (long_to_int (strtol a3).1) true a5 <;> rfl
          · rintro ((h | h) | h)
            · exact h hlen
            · rw [hb] at h; cases h
            · exact h.1 ht
        · have hf : a4 = "false".toList := hv.resolve_left ht
          rw [if_neg ht, if_pos hf, if_neg]
          · cases log_search a1 a2 (long_to_int (strtol a3).1) false a5 <;> rfl
          · rintro ((h | h) | h)
            · exact h hlen
            · rw [hb] at h; cases h
            · exact h.2 hf
      · rw [if_pos (fun h => hb (hspan.mp h)), if_pos (Or.inl (Or.inr (by simpa using hb)))]
    · have ht : ¬ a4 = "true".toList := fun h => hv (Or.inl h)
      have hf : ¬ a4 = "false".toList := fun h => hv (Or.inr h)
      rw [if_neg ht, if_neg hf, ite_self, if_pos (Or.inr ⟨ht, hf⟩)]
  · rw [if_pos hlen, if_pos (Or.inl (Or.inl hlen))]

/-- Witness for the amended C9: valid arguments and a failing search. -/
theorem main_exit_code_witness :
    (argv_valid.length = 6 →
      argv_valid.getD 4 [] = "true".toList ∨ argv_valid.getD 4 [] = "false".toList →
      argv_valid.getD 3 [] ≠ [] ∧ blank_led_integer (argv_valid.getD 3 []) = false) ∧
      main argv_valid search_fails = if spec_args_invalid argv_valid = true then 1 else 0 :=
  ⟨by decide, main_exit_code argv_valid search_fails (by decide)⟩

/-- With no argument but the program name `main` returns 1, and a search
that would succeed does not change it. -/
theorem main_rejects_missing_arguments :
    main ["logfilter".toList] search_fails = 1 ∧
    main ["logfilter".toList] (fun _ _ _ _ _ => some []) = 1 := by
  decide

/-- White space in front of the integer passes the test of `main`: `strtol`
skips it, and `endptr` is at the end of `" 5"`. -/
theorem main_accepts_blank_led_max_lines :
    spec_base10_integer " 5".toList = false ∧
    main ["logfilter".toList, "app.log".toList, "a*".toList, " 5".toList, "false".toList,
      ",".toList] search_fails = 0 := by
  decide

/-- An empty `max_lines` argument passes the test of `main`: `strtol` converts
nothing and `endptr - argv[3]` equals `strlen(argv[3])`, both 0. -/
theorem main_accepts_empty_max_lines :
    main ["logfilter".toList, "app.log".toList, "a*".toList, [], "false".toList, ",".toList]
      search_fails = 0 := by
  decide

/-! ## A complete run exists -/

theorem run_append (cfg : Config) (a b : List Tid) (s : State) :
    run cfg (a ++ b) s = run cfg b (run cfg a s) := by
  induction a generalizing s with
  | nil => rfl
  | cons t ts ih =>
    simp only [List.cons_append, run]
    cases step cfg t s with
    | none => exact ih s
    | some s1 => exact ih s1

theorem increment_pos_ne (a : Int) : ¬ a = increment_pos a := by
  unfold increment_pos
  simp only [QUEUE_SIZE]
  split <;> omega

theorem increment_pos_range (a : Int) (h0 : 0 ≤ a) (h1 : a < 20) :
    0 ≤ increment_pos a ∧ increment_pos a < 20 := by
  unfold increment_pos
  simp only [QUEUE_SIZE]
  split <;> omega

theorem round_line (cfg : Config) (re : List Char → Bool) (stream : List Char) (passed : Int)
    (out : List Char) (s : State) (chunk rest : List Char)
    (hb : Between cfg re stream passed out s) (hq : passed < cfg.max_lines)
    (hf : fgets MAX_LOG_SIZE stream = some (chunk, rest)) :
    Between cfg re rest
      (if re (strip_last (c_str chunk)) = true then passed + 1 else passed)
      (if re (strip_last (c_str chunk)) = true
        then out ++ strip_last (c_str chunk) ++ cfg.separator else out)
      (run cfg (sched_line (re (strip_last (c_str chunk)))) s) := by
  obtain ⟨h1, h2, h3, h4, h5, h6, h7, h8, h9, h10, h11, h12, h13, h14, h15⟩ := hb
  have e1 : ¬ (s.queue.read_pos = s.queue.read_pos - 1) := by omega
  have e2 : (¬ s.queue.read_pos = 19 ∨ ¬ s.queue.read_pos = 0) := by omega
  have e3 := increment_pos_ne s.queue.read_pos
  have e4 := increment_pos_range s.queue.read_pos h9 h10
  subst h11 h13 h14
  cases hre : s.re (strip_last (c_str chunk))
  · constructor <;>
      simp [sched_line, List.replicate, run, step, stepReader, stepFilter, stepMain, h1, h2, h3,
        h4, h5, h6, h7, h8, h12, h15, hq, hf, QUEUE_SIZE, e1, e2, e3, e4, store_same, hre]
  · constructor <;>
      simp [sched_line, List.replicate, run, step, stepReader, stepFilter, stepMain, h1, h2, h3,
        h4, h5, h6, h7, h8, h12, h15, hq, hf, QUEUE_SIZE, e1, e2, e3, e4, store_same, hre,
        strcat]

theorem round_eof (cfg : Config) (re : List Char → Bool) (stream : List Char) (passed : Int)
    (out : List Char) (s : State)
    (hb : Between cfg re stream passed out s) (hq : passed < cfg.max_lines)
    (hf : fgets MAX_LOG_SIZE stream = none) :
    (run cfg sched_eof s).result = some (some out) := by
  obtain ⟨h1, h2, h3, h4, h5, h6, h7, h8, h9, h10, h11, h12, h13, h14, h15⟩ := hb
  have e1 : ¬ (s.queue.read_pos = s.queue.read_pos - 1) := by omega
  have e2 : (¬ s.queue.read_pos = 19 ∨ ¬ s.queue.read_pos = 0) := by omega
  subst h11 h13 h14
  simp [sched_eof, List.replicate, run, step, stepReader, stepFilter, stepMain, h1, h2, h3,
    h4, h5, h6, h7, h8, h12, h15, hq, hf, QUEUE_SIZE, e1, e2]

theorem round_full (cfg : Config) (re : List Char → Bool) (stream : List Char) (passed : Int)
    (out : List Char) (s : State)
    (hb : Between cfg re stream passed out s) (hq : ¬ passed < cfg.max_lines) :
    (run cfg sched_full s).result = some (some out) := by
  obtain ⟨h1, h2, h3, h4, h5, h6, h7, h8, h9, h10, h11, h12, h13, h14, h15⟩ := hb
  subst h11 h13 h14
  simp [sched_full, List.replicate, run, step, stepFilter, stepMain, h1, h2, h3,
    h4, h5, h6, h7, h8, h12, h15, hq]

theorem round_start (cfg : Config) (re : List Char → Bool) (content : List Char)
    (hqa : cfg.queue_alloc_ok = true) (hrt : cfg.reader_thread_ok = true)
    (hft : cfg.filter_thread_ok = true) (hoa : cfg.out_alloc_ok = true)
    (hfile : cfg.file = some content) (hre : cfg.regcomp (re_pattern cfg.mask) = some re) :
    Between cfg re content 0 [] (run cfg sched_start init) := by
  constructor <;>
    simp [sched_start, run, step, stepReader, stepFilter, stepMain, init, create_log_queue,
      hqa, hrt, hft, hoa, hfile, hre]

theorem between_completes (cfg : Config) (re : List Char → Bool) (n : Nat) :
    ∀ (stream : List Char), stream.length ≤ n → ∀ (passed : Int) (out : List Char) (s : State),
      Between cfg re stream passed out s →
      ∃ sched, (run cfg sched s).result = some (some (out ++ join_lines cfg.separator
        (((read_all stream).filter re).take (cfg.max_lines - passed).toNat))) := by
  induction n with
  | zero =>
    intro stream hlen passed out s hb
    have hs : stream = [] := List.length_eq_zero.mp (by omega)
    subst hs
    by_cases hq : passed < cfg.max_lines
    · refine ⟨sched_eof, ?_⟩
      rw [round_eof cfg re [] passed out s hb hq rfl, read_all_none [] rfl]
      simp [join_lines]
    · refine ⟨sched_full, ?_⟩
      rw [round_full cfg re [] passed out s hb hq]
      have hk : (cfg.max_lines - passed).toNat = 0 := by omega
      simp [hk, join_lines]
  | succ n ih =>
    intro stream hlen passed out s hb
    by_cases hq : passed < cfg.max_lines
    · cases hf : fgets MAX_LOG_SIZE stream with
      | none =>
        refine ⟨sched_eof, ?_⟩
        rw [round_eof cfg re stream passed out s hb hq hf, read_all_none stream hf]
        simp [join_lines]
      | some p =>
        obtain ⟨chunk, rest⟩ := p
        have hlt := fgets_rest_lt stream chunk rest hf
        have hb1 := round_line cfg re stream passed out s chunk rest hb hq hf
        obtain ⟨sched, hs⟩ := ih rest (by omega) _ _ _ hb1
        refine ⟨sched_line (re (strip_last (c_str chunk))) ++ sched, ?_⟩
        rw [run_append, hs, read_all_some stream chunk rest hf]
        by_cases hm : re (strip_last (c_str chunk)) = true
        · have hk : (cfg.max_lines - passed).toNat = (cfg.max_lines - (passed + 1)).toNat + 1 := by
            omega
          simp [hm, hk, List.filter_cons, join_lines]
        · simp [hm, List.filter_cons]
    · refine ⟨sched_full, ?_⟩
      rw [round_full cfg re stream passed out s hb hq]
      have hk : (cfg.max_lines - passed).toNat = 0 := by omega
      simp [hk, join_lines]

/-- The search can run to completion: when the allocations and thread
creations succeed, the file opens and the mask compiles, there is an
interleaving in which `log_search` returns the first `max_lines` lines of the
file that the pattern accepts, each followed by the separator. -/
theorem exists_complete_run (cfg : Config) (re : List Char → Bool) (content : List Char)
    (hqa : cfg.queue_alloc_ok = true) (hrt : cfg.reader_thread_ok = true)
    (hft : cfg.filter_thread_ok = true) (hoa : cfg.out_alloc_ok = true)
    (hfile : cfg.file = some content) (hre : cfg.regcomp (re_pattern cfg.mask) = some re) :
    ∃ sched, (run cfg sched init).result = some (some (join_lines cfg.separator
      (((file_lines cfg).filter re).take cfg.max_lines.toNat))) := by
  have hb := round_start cfg re content hqa hrt hft hoa hfile hre
  obtain ⟨sched, hs⟩ := between_completes cfg re content.length content (le_refl _) 0 [] _ hb
  refine ⟨sched_start ++ sched, ?_⟩
  rw [run_append, hs]
  simp [file_lines, hfile]

end LogFilter
